import Mathlib

/-!
Verification development for the crypto data pipeline repository.

The definitions below are shallow embeddings of the Python sources:
- CoinMarketCapClient.collect_crypto_data, get_global_market_data,
  _make_request and _create_session (src/airflow/dags/utils/crypto_api_client.py);
- DataManager.save_json and save_ndjson (src/airflow/dags/utils/data_manager.py);
- CryptoConfig.get_crypto_symbols and validate (src/airflow/dags/utils/crypto_config.py).

Python dictionaries are modelled as insertion-ordered association lists,
Python JSON values as the inductive type Json, exceptions as Except, and
the HTTP transport as an oracle function passed to the embedded code.
-/

namespace Crypto

/-- JSON values, modelling the Python objects the client manipulates.
Numbers are modelled as integers. -/
inductive Json where
  | null
  | bool (b : Bool)
  | num (n : Int)
  | str (s : String)
  | arr (xs : List Json)
  | obj (fields : List (String × Json))
deriving Repr

/-- Lookup of a key in an object, modelling Python dict access: the first
binding for the key, none when the key is absent or the value is not a dict. -/
def Json.get? : Json → String → Option Json
  | .obj fields, k => (fields.find? (fun p => p.1 = k)).map (fun p => p.2)
  | _, _ => none

/-- Python dict.get with default None: a missing key yields JSON null. -/
def Json.getD (j : Json) (k : String) : Json :=
  (j.get? k).getD Json.null

/-- Association list of string keys, modelling an insertion-ordered dict. -/
abbrev Assoc := List (String × Json)

/-- Lookup in an association list (first binding wins, as in a dict). -/
def getKey (m : Assoc) (k : String) : Option Json :=
  (m.find? (fun p => p.1 = k)).map (fun p => p.2)

/-- Dict assignment: replace the value in place when the key exists,
otherwise append the new binding at the end (insertion order). -/
def setKey (m : Assoc) (k : String) (v : Json) : Assoc :=
  if m.any (fun p => p.1 = k) then
    m.map (fun p => if p.1 = k then (k, v) else p)
  else
    m ++ [(k, v)]

/-- One merged per-asset record, mirroring the dict built by
collect_crypto_data: static metadata fields plus the per-currency quotes. -/
structure EnrichedRecord where
  atTimestamp : String
  symbol : String
  name : Json
  slug : Json
  rank : Json
  max_supply : Json
  circulating_supply : Json
  total_supply : Json
  last_updated : Json
  date_added : Json
  tags : Json
  platform : Json
  quotes : Assoc
deriving Repr

/-- The record created on the first currency that returns data for a symbol,
mirroring the dict literal in collect_crypto_data (quotes start empty). -/
def initRecord (now symbol : String) (data : Json) : EnrichedRecord :=
  { atTimestamp := now
    symbol := symbol
    name := data.getD "name"
    slug := data.getD "slug"
    rank := data.getD "cmc_rank"
    max_supply := data.getD "max_supply"
    circulating_supply := data.getD "circulating_supply"
    total_supply := data.getD "total_supply"
    last_updated := data.getD "last_updated"
    date_added := data.getD "date_added"
    tags := (data.get? "tags").getD (Json.arr [])
    platform := data.getD "platform"
    quotes := [] }

/-- The quote slice stored under one currency key, mirroring the dict literal
assigned to quotes in collect_crypto_data. -/
def quoteSlice (curr_data : Json) : Json :=
  Json.obj
    [ ("price", curr_data.getD "price")
    , ("volume_24h", curr_data.getD "volume_24h")
    , ("volume_change_24h", curr_data.getD "volume_change_24h")
    , ("percent_change_1h", curr_data.getD "percent_change_1h")
    , ("percent_change_24h", curr_data.getD "percent_change_24h")
    , ("percent_change_7d", curr_data.getD "percent_change_7d")
    , ("percent_change_30d", curr_data.getD "percent_change_30d")
    , ("percent_change_60d", curr_data.getD "percent_change_60d")
    , ("percent_change_90d", curr_data.getD "percent_change_90d")
    , ("market_cap", curr_data.getD "market_cap")
    , ("market_cap_dominance", curr_data.getD "market_cap_dominance")
    , ("fully_diluted_market_cap", curr_data.getD "fully_diluted_market_cap")
    , ("last_updated", curr_data.getD "last_updated") ]

/-- Mutable state of one collection run: the symbol-to-record map
(crypto_data_map, insertion-ordered), the failed symbol set, the issued
request trace and the number of successful batch merges (the latter two are
observers instrumenting the run, not data the code stores). -/
structure CollectState where
  map : List (String × EnrichedRecord)
  failed : List String
  trace : List (String × List String)
  merges : Nat
deriving Repr

/-- Lookup of a record in crypto_data_map. -/
def getRec (m : List (String × EnrichedRecord)) (s : String) : Option EnrichedRecord :=
  (m.find? (fun p => p.1 = s)).map (fun p => p.2)

/-- In-place update of the record stored under a symbol, keeping positions. -/
def updateRec (m : List (String × EnrichedRecord)) (s : String)
    (f : EnrichedRecord → EnrichedRecord) : List (String × EnrichedRecord) :=
  m.map (fun p => if p.1 = s then (p.1, f p.2) else p)

/-- Set insertion for failed_symbols (membership is what matters). -/
def addFailed (failed : List String) (s : String) : List String :=
  if s ∈ failed then failed else failed ++ [s]

/-- The quote-map extension applied to an existing record: only the quotes
field changes, every static field is kept. -/
def extendQuotes (currency : String) (curr_data : Json) (r : EnrichedRecord) :
    EnrichedRecord :=
  { r with quotes := setKey r.quotes currency (quoteSlice curr_data) }

/-- Body of the inner for-symbol loop of collect_crypto_data: create the
record on first sight, extend its quotes when the response nests data for
the current currency, or mark the symbol failed when absent. -/
def processSymbol (now currency : String) (quotes : Assoc)
    (st : CollectState) (symbol : String) : CollectState :=
  match getKey quotes symbol with
  | some data =>
    let map1 :=
      if (getRec st.map symbol).isSome then st.map
      else st.map ++ [(symbol, initRecord now symbol data)]
    match Json.get? ((data.get? "quote").getD (Json.obj [])) currency with
    | some curr_data =>
      { st with map := updateRec map1 symbol (extendQuotes currency curr_data) }
    | none => { st with map := map1 }
  | none => { st with failed := addFailed st.failed symbol }

/-- One (currency, batch) request of collect_crypto_data: the request is
issued (recorded in the trace), and either the whole batch of symbols is
folded through processSymbol on success, or every symbol of the batch is
added to failed_symbols on a transport failure. -/
def processBatch (now : String) (fetch : String → List String → Except Unit Assoc)
    (currency : String) (st : CollectState) (batch : List String) : CollectState :=
  let st := { st with trace := st.trace ++ [(currency, batch)] }
  match fetch currency batch with
  | .ok quotes =>
    let st := { st with merges := st.merges + 1 }
    batch.foldl (processSymbol now currency quotes) st
  | .error _ => { st with failed := batch.foldl addFailed st.failed }

/-- Fuel-driven helper for toBatches; the fuel only forces structural
recursion and is always at least the length of the list. -/
def toBatchesGo : Nat → List String → List (List String)
  | _, [] => []
  | 0, _ :: _ => []
  | fuel + 1, x :: xs => (x :: xs.take 99) :: toBatchesGo fuel (xs.drop 99)

/-- Batching of the symbol list: contiguous slices of at most 100 symbols,
mirroring the range(0, len(symbols), batch_size) loop with batch_size 100. -/
def toBatches (l : List String) : List (List String) :=
  toBatchesGo l.length l

/-- Defaulting of the currency list: Python falsy default (None or empty
list becomes the single currency USD). -/
def effCurrencies (convert_currencies : List String) : List String :=
  if convert_currencies.isEmpty then ["USD"] else convert_currencies

/-- The empty starting state of a run. -/
def initState : CollectState := { map := [], failed := [], trace := [], merges := 0 }

/-- collect_crypto_data: outer loop over currencies, inner loop over the
symbol batches, folding every response into the shared state. -/
def collect_crypto_data (now : String)
    (fetch : String → List String → Except Unit Assoc)
    (symbols : List String) (convert_currencies : List String) : CollectState :=
  (effCurrencies convert_currencies).foldl
    (fun st currency => (toBatches symbols).foldl (processBatch now fetch currency) st)
    initState

/-- The ordered request plan: for each currency in order, all symbol
batches in order (outer loop currencies, inner loop batches). -/
def planOf (currencies : List String) (batches : List (List String)) :
    List (String × List String) :=
  (currencies.map (fun c => batches.map (fun b => (c, b)))).flatten

theorem toBatchesGo_fuel (f1 f2 : Nat) (l : List String)
    (h1 : l.length ≤ f1) (h2 : l.length ≤ f2) :
    toBatchesGo f1 l = toBatchesGo f2 l := by
  induction f1 generalizing f2 l with
  | zero =>
    match l with
    | [] => cases f2 <;> rfl
    | x :: xs => simp at h1
  | succ f1 ih =>
    match l with
    | [] => cases f2 <;> rfl
    | x :: xs =>
      match f2 with
      | 0 => simp at h2
      | g2 + 1 =>
        simp only [toBatchesGo, List.cons.injEq, true_and]
        apply ih
        · simp only [List.length_cons] at h1
          have := List.length_drop 99 xs
          omega
        · simp only [List.length_cons] at h2
          have := List.length_drop 99 xs
          omega

theorem toBatches_nil : toBatches [] = [] := rfl

theorem toBatches_cons (x : String) (xs : List String) :
    toBatches (x :: xs) = (x :: xs.take 99) :: toBatches (xs.drop 99) := by
  show toBatchesGo (xs.length + 1) (x :: xs) = _
  simp only [toBatchesGo, List.cons.injEq, true_and]
  apply toBatchesGo_fuel
  · have := List.length_drop 99 xs
    omega
  · exact Nat.le_refl _

theorem toBatches_flatten (l : List String) : (toBatches l).flatten = l := by
  have H : ∀ (n : Nat) (l : List String), l.length ≤ n → (toBatches l).flatten = l := by
    intro n
    induction n with
    | zero =>
      intro l h
      match l with
      | [] => rfl
      | x :: xs => simp at h
    | succ n ih =>
      intro l h
      match l with
      | [] => rfl
      | x :: xs =>
        rw [toBatches_cons]
        simp only [List.flatten_cons]
        rw [ih (xs.drop 99) ?_]
        · simp [List.take_append_drop]
        · have := List.length_drop 99 xs
          simp only [List.length_cons] at h
          omega
  exact H l.length l (Nat.le_refl _)

theorem toBatches_chunk_size (l : List String) :
    ∀ b ∈ toBatches l, b ≠ [] ∧ b.length ≤ 100 := by
  have H : ∀ (n : Nat) (l : List String), l.length ≤ n →
      ∀ b ∈ toBatches l, b ≠ [] ∧ b.length ≤ 100 := by
    intro n
    induction n with
    | zero =>
      intro l h
      match l with
      | [] => intro b hb; simp [toBatches_nil] at hb
      | x :: xs => simp at h
    | succ n ih =>
      intro l h
      match l with
      | [] => intro b hb; simp [toBatches_nil] at hb
      | x :: xs =>
        rw [toBatches_cons]
        intro b hb
        rcases List.mem_cons.mp hb with heq | hmem
        · subst heq
          refine ⟨by simp, ?_⟩
          have := List.length_take_le 99 xs
          simp only [List.length_cons]
          omega
        · refine ih (xs.drop 99) ?_ b hmem
          have := List.length_drop 99 xs
          simp only [List.length_cons] at h
          omega
  exact H l.length l (Nat.le_refl _)

theorem planOf_nil_batches (currencies : List String) :
    planOf currencies [] = [] := by
  induction currencies with
  | nil => rfl
  | cons c cs ih => simp only [planOf, List.map_cons] at ih ⊢; simp [ih]

/-- The nested currency and batch loops of collect_crypto_data visit exactly
the ordered request plan. -/
theorem foldl_planOf (now : String) (fetch : String → List String → Except Unit Assoc)
    (currencies : List String) (batches : List (List String)) (st : CollectState) :
    currencies.foldl (fun st c => batches.foldl (processBatch now fetch c) st) st
      = (planOf currencies batches).foldl
          (fun st p => processBatch now fetch p.1 st p.2) st := by
  induction currencies generalizing st with
  | nil => rfl
  | cons c cs ih =>
    simp only [List.foldl_cons, planOf, List.map_cons, List.flatten_cons,
      List.foldl_append]
    rw [ih]
    congr 1
    rw [List.foldl_map]

theorem collect_eq_plan_foldl (now : String)
    (fetch : String → List String → Except Unit Assoc)
    (symbols convert_currencies : List String) :
    collect_crypto_data now fetch symbols convert_currencies
      = (planOf (effCurrencies convert_currencies) (toBatches symbols)).foldl
          (fun st p => processBatch now fetch p.1 st p.2) initState := by
  unfold collect_crypto_data
  rw [foldl_planOf]

theorem processSymbol_trace (now currency : String) (quotes : Assoc)
    (st : CollectState) (symbol : String) :
    (processSymbol now currency quotes st symbol).trace = st.trace := by
  unfold processSymbol
  split
  · dsimp only
    split <;> rfl
  · rfl

theorem foldl_processSymbol_trace (now currency : String) (quotes : Assoc)
    (st : CollectState) (batch : List String) :
    (batch.foldl (processSymbol now currency quotes) st).trace = st.trace := by
  induction batch generalizing st with
  | nil => rfl
  | cons s ss ih => rw [List.foldl_cons, ih, processSymbol_trace]

theorem processBatch_trace (now : String)
    (fetch : String → List String → Except Unit Assoc)
    (currency : String) (st : CollectState) (batch : List String) :
    (processBatch now fetch currency st batch).trace
      = st.trace ++ [(currency, batch)] := by
  unfold processBatch
  cases fetch currency batch with
  | ok quotes => rw [foldl_processSymbol_trace]
  | error e => rfl

theorem foldl_processBatch_trace (now : String)
    (fetch : String → List String → Except Unit Assoc)
    (plan : List (String × List String)) (st : CollectState) :
    (plan.foldl (fun st p => processBatch now fetch p.1 st p.2) st).trace
      = st.trace ++ plan := by
  induction plan generalizing st with
  | nil => simp
  | cons p ps ih =>
    rw [List.foldl_cons, ih, processBatch_trace]
    simp

/-- The issued request trace of a run is exactly the ordered plan. -/
theorem collect_trace (now : String)
    (fetch : String → List String → Except Unit Assoc)
    (symbols convert_currencies : List String) :
    (collect_crypto_data now fetch symbols convert_currencies).trace
      = planOf (effCurrencies convert_currencies) (toBatches symbols) := by
  rw [collect_eq_plan_foldl, foldl_processBatch_trace]
  rfl

/-- The static part of a record: everything except the quote mapping. -/
def EnrichedRecord.staticPart (r : EnrichedRecord) : EnrichedRecord :=
  { r with quotes := [] }

theorem staticPart_extendQuotes (currency : String) (curr_data : Json)
    (r : EnrichedRecord) :
    (extendQuotes currency curr_data r).staticPart = r.staticPart := rfl

theorem staticPart_initRecord (now symbol : String) (data : Json) :
    (initRecord now symbol data).staticPart = initRecord now symbol data := rfl

theorem getRec_cons (p : String × EnrichedRecord)
    (ps : List (String × EnrichedRecord)) (s : String) :
    getRec (p :: ps) s = if p.1 = s then some p.2 else getRec ps s := by
  by_cases hp : p.1 = s <;> simp [getRec, List.find?, hp]

theorem updateRec_cons (p : String × EnrichedRecord)
    (ps : List (String × EnrichedRecord)) (s : String)
    (f : EnrichedRecord → EnrichedRecord) :
    updateRec (p :: ps) s f
      = (if p.1 = s then (p.1, f p.2) else p) :: updateRec ps s f := rfl

theorem getRec_append_of_some (m l : List (String × EnrichedRecord)) (s : String)
    (r : EnrichedRecord) (h : getRec m s = some r) : getRec (m ++ l) s = some r := by
  induction m with
  | nil => simp [getRec] at h
  | cons p ps ih =>
    rw [getRec_cons] at h
    rw [List.cons_append, getRec_cons]
    by_cases hp : p.1 = s
    · rw [if_pos hp] at h ⊢; exact h
    · rw [if_neg hp] at h ⊢; exact ih h

theorem getRec_append_single_of_none (m : List (String × EnrichedRecord))
    (s k : String) (v : EnrichedRecord) (h : getRec m s = none) :
    getRec (m ++ [(k, v)]) s = if k = s then some v else none := by
  induction m with
  | nil => rw [List.nil_append, getRec_cons]; rfl
  | cons p ps ih =>
    rw [getRec_cons] at h
    rw [List.cons_append, getRec_cons]
    by_cases hp : p.1 = s
    · rw [if_pos hp] at h; exact absurd h (by simp)
    · rw [if_neg hp] at h ⊢; exact ih h

theorem getRec_updateRec_self (m : List (String × EnrichedRecord)) (s : String)
    (f : EnrichedRecord → EnrichedRecord) :
    getRec (updateRec m s f) s = (getRec m s).map f := by
  induction m with
  | nil => rfl
  | cons p ps ih =>
    rw [updateRec_cons]
    by_cases hp : p.1 = s
    · rw [if_pos hp, getRec_cons, getRec_cons]
      simp [hp]
    · rw [if_neg hp, getRec_cons, getRec_cons, if_neg hp, if_neg hp, ih]

theorem getRec_updateRec_ne (m : List (String × EnrichedRecord)) (s t : String)
    (f : EnrichedRecord → EnrichedRecord) (h : s ≠ t) :
    getRec (updateRec m s f) t = getRec m t := by
  induction m with
  | nil => rfl
  | cons p ps ih =>
    rw [updateRec_cons]
    by_cases hp : p.1 = s
    · have hpt : ¬ p.1 = t := by rw [hp]; exact h
      rw [if_pos hp, getRec_cons, getRec_cons, if_neg hpt]
      simp only [hpt, if_false]
      exact ih
    · rw [if_neg hp, getRec_cons, getRec_cons, ih]

theorem psym_staticPart (now currency : String) (quotes : Assoc)
    (st : CollectState) (y S : String) (r : EnrichedRecord)
    (h : getRec st.map S = some r) :
    (getRec (processSymbol now currency quotes st y).map S).map
        EnrichedRecord.staticPart = some r.staticPart := by
  cases hdata : getKey quotes y with
  | none => simp [processSymbol, hdata, h]
  | some data =>
    have hmap1 : getRec (if (getRec st.map y).isSome then st.map
        else st.map ++ [(y, initRecord now y data)]) S = some r := by
      by_cases hy : (getRec st.map y).isSome
      · rw [if_pos hy]; exact h
      · rw [if_neg hy]
        exact getRec_append_of_some _ _ _ _ h
    cases hcurr : Json.get? ((data.get? "quote").getD (Json.obj [])) currency with
    | none =>
      simp only [processSymbol, hdata, hcurr]
      rw [hmap1]
      rfl
    | some curr_data =>
      simp only [processSymbol, hdata, hcurr]
      by_cases hyS : y = S
      · subst hyS
        rw [getRec_updateRec_self, hmap1]
        simp [staticPart_extendQuotes]
      · rw [getRec_updateRec_ne _ _ _ _ hyS, hmap1]
        simp

theorem psym_map_ne (now currency : String) (quotes : Assoc)
    (st : CollectState) (y S : String) (hy : y ≠ S)
    (h : getRec st.map S = none) :
    getRec (processSymbol now currency quotes st y).map S = none := by
  cases hdata : getKey quotes y with
  | none => simpa [processSymbol, hdata] using h
  | some data =>
    have hmap1 : getRec (if (getRec st.map y).isSome then st.map
        else st.map ++ [(y, initRecord now y data)]) S = none := by
      by_cases hyy : (getRec st.map y).isSome
      · rw [if_pos hyy]; exact h
      · rw [if_neg hyy]
        rw [getRec_append_single_of_none _ _ _ _ h, if_neg hy]
    cases hcurr : Json.get? ((data.get? "quote").getD (Json.obj [])) currency with
    | none => simpa [processSymbol, hdata, hcurr] using hmap1
    | some curr_data =>
      simp only [processSymbol, hdata, hcurr]
      rw [getRec_updateRec_ne _ _ _ _ hy]
      exact hmap1

theorem psym_map_nodata (now currency : String) (quotes : Assoc)
    (st : CollectState) (S : String) (h : getKey quotes S = none) :
    (processSymbol now currency quotes st S).map = st.map := by
  simp [processSymbol, h]

theorem psym_create (now currency : String) (quotes : Assoc)
    (st : CollectState) (S : String) (d : Json)
    (hnone : getRec st.map S = none) (hd : getKey quotes S = some d) :
    (getRec (processSymbol now currency quotes st S).map S).map
        EnrichedRecord.staticPart = some (initRecord now S d) := by
  have hisNone : (getRec st.map S).isSome = false := by simp [hnone]
  have hmap1 : getRec (if (getRec st.map S).isSome then st.map
      else st.map ++ [(S, initRecord now S d)]) S = some (initRecord now S d) := by
    rw [hisNone]
    simp only [Bool.false_eq_true, if_false]
    rw [getRec_append_single_of_none _ _ _ _ hnone, if_pos rfl]
  cases hcurr : Json.get? ((d.get? "quote").getD (Json.obj [])) currency with
  | some curr_data =>
    simp only [processSymbol, hd, hcurr]
    rw [getRec_updateRec_self, hmap1]
    simp [staticPart_extendQuotes, staticPart_initRecord]
  | none =>
    simp only [processSymbol, hd, hcurr]
    rw [hmap1]
    simp [staticPart_initRecord]

/-- Absence of per-symbol data in the outcome of one request: the request
failed, or its response dict carries no entry for the symbol. -/
def NoDataFor (res : Except Unit Assoc) (s : String) : Prop :=
  ∀ q, res = Except.ok q → getKey q s = none

theorem foldl_psym_staticPart (now currency : String) (quotes : Assoc)
    (S : String) :
    ∀ (batch : List String) (st : CollectState) (r : EnrichedRecord),
      getRec st.map S = some r →
      (getRec ((batch.foldl (processSymbol now currency quotes) st).map) S).map
        EnrichedRecord.staticPart = some r.staticPart := by
  intro batch
  induction batch with
  | nil => intro st r h; simp [h]
  | cons y ys ih =>
    intro st r h
    have h1 := psym_staticPart now currency quotes st y S r h
    rw [List.foldl_cons]
    match hg : getRec ((processSymbol now currency quotes st y).map) S with
    | none => rw [hg] at h1; simp at h1
    | some r1 =>
      rw [hg] at h1
      have hr1 : r1.staticPart = r.staticPart := by simpa using h1
      rw [← hr1]
      exact ih _ r1 hg

theorem foldl_psym_none (now currency : String) (quotes : Assoc) (S : String) :
    ∀ (batch : List String) (st : CollectState), getRec st.map S = none →
      (S ∉ batch ∨ getKey quotes S = none) →
      getRec ((batch.foldl (processSymbol now currency quotes) st).map) S = none := by
  intro batch
  induction batch with
  | nil => intro st h _; exact h
  | cons y ys ih =>
    intro st h hdisj
    rw [List.foldl_cons]
    rcases hdisj with hnot | hq
    · have hy : y ≠ S := fun he => hnot (he ▸ List.mem_cons_self y ys)
      refine ih _ (psym_map_ne now currency quotes st y S hy h) ?_
      exact Or.inl fun hm => hnot (List.mem_cons_of_mem _ hm)
    · by_cases hy : y = S
      · subst hy
        have hkeep := psym_map_nodata now currency quotes st y hq
        refine ih _ ?_ (Or.inr hq)
        rw [hkeep]
        exact h
      · exact ih _ (psym_map_ne now currency quotes st y S hy h) (Or.inr hq)

theorem foldl_psym_create (now currency : String) (quotes : Assoc)
    (S : String) (d : Json) :
    ∀ (batch : List String) (st : CollectState), getRec st.map S = none →
      S ∈ batch → getKey quotes S = some d →
      (getRec ((batch.foldl (processSymbol now currency quotes) st).map) S).map
        EnrichedRecord.staticPart = some (initRecord now S d) := by
  intro batch
  induction batch with
  | nil => intro st _ hm; exact absurd hm (List.not_mem_nil S)
  | cons y ys ih =>
    intro st hnone hm hd
    rw [List.foldl_cons]
    by_cases hy : y = S
    · subst hy
      have hc := psym_create now currency quotes st y d hnone hd
      match hg : getRec ((processSymbol now currency quotes st y).map) y with
      | none => rw [hg] at hc; simp at hc
      | some r1 =>
        rw [hg] at hc
        have hr1 : r1.staticPart = initRecord now y d := by simpa using hc
        rw [← hr1]
        exact foldl_psym_staticPart now currency quotes y ys _ r1 hg
    · have hm2 : S ∈ ys := by
        rcases List.mem_cons.mp hm with he | hm2
        · exact absurd he.symm hy
        · exact hm2
      exact ih _ (psym_map_ne now currency quotes st y S hy hnone) hm2 hd

theorem processBatch_map_of_error (now : String)
    (fetch : String → List String → Except Unit Assoc)
    (currency : String) (st : CollectState) (batch : List String)
    (h : fetch currency batch = Except.error ()) :
    (processBatch now fetch currency st batch).map = st.map := by
  simp [processBatch, h]

theorem processBatch_staticPart (now : String)
    (fetch : String → List String → Except Unit Assoc)
    (currency : String) (st : CollectState) (batch : List String)
    (S : String) (r : EnrichedRecord) (h : getRec st.map S = some r) :
    (getRec ((processBatch now fetch currency st batch).map) S).map
      EnrichedRecord.staticPart = some r.staticPart := by
  cases hf : fetch currency batch with
  | ok quotes =>
    simp only [processBatch, hf]
    exact foldl_psym_staticPart now currency quotes S batch _ r h
  | error e =>
    simp only [processBatch, hf]
    simp [h]

theorem processBatch_none (now : String)
    (fetch : String → List String → Except Unit Assoc)
    (currency : String) (st : CollectState) (batch : List String)
    (S : String) (hnone : getRec st.map S = none)
    (hdisj : S ∉ batch ∨ NoDataFor (fetch currency batch) S) :
    getRec ((processBatch now fetch currency st batch).map) S = none := by
  cases hf : fetch currency batch with
  | ok quotes =>
    simp only [processBatch, hf]
    refine foldl_psym_none now currency quotes S batch _ hnone ?_
    rcases hdisj with hnot | hnd
    · exact Or.inl hnot
    · exact Or.inr (hnd quotes hf)
  | error e =>
    simp only [processBatch, hf]
    exact hnone

theorem processBatch_create (now : String)
    (fetch : String → List String → Except Unit Assoc)
    (currency : String) (st : CollectState) (batch : List String)
    (S : String) (q : Assoc) (d : Json)
    (hnone : getRec st.map S = none) (hm : S ∈ batch)
    (hf : fetch currency batch = Except.ok q) (hd : getKey q S = some d) :
    (getRec ((processBatch now fetch currency st batch).map) S).map
      EnrichedRecord.staticPart = some (initRecord now S d) := by
  simp only [processBatch, hf]
  exact foldl_psym_create now currency q S d batch _ hnone hm hd

theorem foldl_pb_staticPart (now : String)
    (fetch : String → List String → Except Unit Assoc) (S : String) :
    ∀ (plan : List (String × List String)) (st : CollectState) (r : EnrichedRecord),
      getRec st.map S = some r →
      (getRec ((plan.foldl (fun st p => processBatch now fetch p.1 st p.2) st).map) S).map
        EnrichedRecord.staticPart = some r.staticPart := by
  intro plan
  induction plan with
  | nil => intro st r h; simp [h]
  | cons p ps ih =>
    intro st r h
    have h1 := processBatch_staticPart now fetch p.1 st p.2 S r h
    rw [List.foldl_cons]
    match hg : getRec ((processBatch now fetch p.1 st p.2).map) S with
    | none => rw [hg] at h1; simp at h1
    | some r1 =>
      rw [hg] at h1
      have hr1 : r1.staticPart = r.staticPart := by simpa using h1
      rw [← hr1]
      exact ih _ r1 hg

theorem foldl_pb_none (now : String)
    (fetch : String → List String → Except Unit Assoc) (S : String) :
    ∀ (plan : List (String × List String)) (st : CollectState),
      getRec st.map S = none →
      (∀ p ∈ plan, S ∉ p.2 ∨ NoDataFor (fetch p.1 p.2) S) →
      getRec ((plan.foldl (fun st p => processBatch now fetch p.1 st p.2) st).map) S
        = none := by
  intro plan
  induction plan with
  | nil => intro st h _; exact h
  | cons p ps ih =>
    intro st h hall
    rw [List.foldl_cons]
    refine ih _ ?_ (fun p2 hp2 => hall p2 (List.mem_cons_of_mem _ hp2))
    exact processBatch_none now fetch p.1 st p.2 S h (hall p (List.mem_cons_self _ _))

theorem mem_planOf (currencies : List String) (batches : List (List String))
    (p : String × List String) :
    p ∈ planOf currencies batches ↔ p.1 ∈ currencies ∧ p.2 ∈ batches := by
  unfold planOf
  simp only [List.mem_flatten, List.mem_map]
  constructor
  · rintro ⟨l, ⟨c, hc, rfl⟩, hp⟩
    rcases List.mem_map.mp hp with ⟨b, hb, rfl⟩
    exact ⟨hc, hb⟩
  · rintro ⟨h1, h2⟩
    refine ⟨batches.map (fun b => (p.1, b)), ⟨p.1, h1, rfl⟩, ?_⟩
    exact List.mem_map.mpr ⟨p.2, h2, rfl⟩

theorem planOf_append (cs1 cs2 : List String) (batches : List (List String)) :
    planOf (cs1 ++ cs2) batches = planOf cs1 batches ++ planOf cs2 batches := by
  unfold planOf
  rw [List.map_append, List.flatten_append]

theorem planOf_cons (c : String) (cs : List String) (batches : List (List String)) :
    planOf (c :: cs) batches
      = batches.map (fun b => (c, b)) ++ planOf cs batches := by
  unfold planOf
  rw [List.map_cons, List.flatten_cons]

theorem effCurrencies_of_ne_nil (cs : List String) (h : cs ≠ []) :
    effCurrencies cs = cs := by
  unfold effCurrencies
  rw [if_neg]
  simpa using h

theorem mem_addFailed (failed : List String) (t s : String) :
    s ∈ addFailed failed t ↔ s ∈ failed ∨ s = t := by
  unfold addFailed
  by_cases ht : t ∈ failed
  · rw [if_pos ht]
    constructor
    · exact Or.inl
    · rintro (h | rfl)
      · exact h
      · exact ht
  · rw [if_neg ht]
    simp

theorem mem_foldl_addFailed (l : List String) :
    ∀ (failed : List String) (s : String),
      s ∈ l.foldl addFailed failed ↔ s ∈ failed ∨ s ∈ l := by
  induction l with
  | nil => intro failed s; simp
  | cons y ys ih =>
    intro failed s
    rw [List.foldl_cons, ih, mem_addFailed, List.mem_cons]
    tauto

theorem collect_nil_symbols (now : String)
    (fetch : String → List String → Except Unit Assoc)
    (currencies : List String) :
    collect_crypto_data now fetch [] currencies = initState := by
  unfold collect_crypto_data
  generalize effCurrencies currencies = cs
  induction cs with
  | nil => rfl
  | cons c cs ih => exact ih

/-- C1 (amended): in a run over currencies pre ++ c1 :: post with
duplicate-free symbols, if no currency of pre produced data for the symbol
S and the batch containing S under c1 returned data d for S, then the
static metadata of the merged record of S equals the record initialised
from d, whatever the later currencies return: they only extend the quote
mapping. -/
theorem c1_static_metadata_first_success (now : String)
    (fetch : String → List String → Except Unit Assoc)
    (symbols pre post : List String) (c1 S : String) (b : List String)
    (q : Assoc) (d : Json)
    (hnodup : symbols.Nodup)
    (hb : b ∈ toBatches symbols) (hS : S ∈ b)
    (hok : fetch c1 b = Except.ok q) (hd : getKey q S = some d)
    (hpre : ∀ c ∈ pre, ∀ b2 ∈ toBatches symbols, S ∈ b2 →
      NoDataFor (fetch c b2) S) :
    (getRec (collect_crypto_data now fetch symbols (pre ++ c1 :: post)).map S).map
      EnrichedRecord.staticPart = some (initRecord now S d) := by
  have heff : effCurrencies (pre ++ c1 :: post) = pre ++ c1 :: post :=
    effCurrencies_of_ne_nil _ (by simp)
  obtain ⟨B1, B2, hsplit⟩ := List.append_of_mem hb
  have hnodB : (toBatches symbols).Pairwise List.Disjoint := by
    have hflatten : (toBatches symbols).flatten.Nodup := by
      rw [toBatches_flatten]
      exact hnodup
    exact (List.nodup_flatten.mp hflatten).2
  have hB1 : ∀ b2 ∈ B1, S ∉ b2 := by
    intro b2 hb2 hSb2
    have hpair := hsplit ▸ hnodB
    have hdisj : List.Disjoint b2 b :=
      (List.pairwise_append.mp hpair).2.2 b2 hb2 b (List.mem_cons_self _ _)
    exact hdisj hSb2 hS
  have hB2 : ∀ b2 ∈ B2, S ∉ b2 := by
    intro b2 hb2 hSb2
    have hpair := hsplit ▸ hnodB
    have hcons := (List.pairwise_append.mp hpair).2.1
    have hdisj : List.Disjoint b b2 := (List.pairwise_cons.mp hcons).1 b2 hb2
    exact hdisj hS hSb2
  rw [collect_eq_plan_foldl, heff, hsplit, planOf_append, planOf_cons,
    List.map_append, List.map_cons]
  rw [List.foldl_append]
  set F := fun (st : CollectState) (p : String × List String) =>
    processBatch now fetch p.1 st p.2 with hF
  have hafterPre : getRec ((planOf pre (B1 ++ b :: B2)).foldl F initState).map S
      = none := by
    refine foldl_pb_none now fetch S _ _ rfl ?_
    intro p hp
    obtain ⟨hc, hbm⟩ := (mem_planOf pre (B1 ++ b :: B2) p).mp hp
    by_cases hmem : S ∈ p.2
    · exact Or.inr (hpre p.1 hc p.2 (hsplit ▸ hbm) hmem)
    · exact Or.inl hmem
  rw [List.append_assoc, List.foldl_append]
  have hafterB1 : getRec ((B1.map (fun b => (c1, b))).foldl F
      ((planOf pre (B1 ++ b :: B2)).foldl F initState)).map S = none := by
    refine foldl_pb_none now fetch S _ _ hafterPre ?_
    intro p hp
    obtain ⟨b2, hb2, rfl⟩ := List.mem_map.mp hp
    exact Or.inl (hB1 b2 hb2)
  simp only [List.cons_append, List.foldl_cons]
  have hcreate := processBatch_create now fetch c1
    ((B1.map (fun b => (c1, b))).foldl F
      ((planOf pre (B1 ++ b :: B2)).foldl F initState)) b S q d
    hafterB1 hS hok hd
  match hg : getRec ((processBatch now fetch c1
      ((B1.map (fun b => (c1, b))).foldl F
        ((planOf pre (B1 ++ b :: B2)).foldl F initState)) b).map) S with
  | none => rw [hg] at hcreate; simp at hcreate
  | some r1 =>
    rw [hg] at hcreate
    have hr1 : r1.staticPart = initRecord now S d := by simpa using hcreate
    have hrest := foldl_pb_staticPart now fetch S
      (B2.map (fun b => (c1, b)) ++ planOf post (B1 ++ b :: B2)) _ r1 hg
    rw [hr1] at hrest
    exact hrest

/-- Fetch oracle for the C1 counterexample: both USD and BRL return data
for BTC, with different values in the static name field. -/
def fetchC1 : String → List String → Except Unit Assoc := fun c _ =>
  if c = "USD" then Except.ok [("BTC", Json.obj [("name", Json.str "A")])]
  else if c = "BRL" then Except.ok [("BTC", Json.obj [("name", Json.str "B")])]
  else Except.ok []

/-- C1 counterexample: in the run over currencies USD, BRL, EUR, take
C1 := BRL (processed before C2 := EUR). The batch containing BTC under BRL
returned data for BTC carrying name "B", yet the merged record keeps the
name "A" of the earlier USD response, so the static metadata does not come
from the C1 response as the claim states. -/
theorem c1_counterexample :
    fetchC1 "BRL" ["BTC"] = Except.ok [("BTC", Json.obj [("name", Json.str "B")])]
    ∧ (getRec (collect_crypto_data "T" fetchC1 ["BTC"] ["USD", "BRL", "EUR"]).map
        "BTC").map (fun r => r.name) = some (Json.str "A")
    ∧ Json.str "A" ≠ Json.str "B" := by
  refine ⟨rfl, rfl, ?_⟩
  simp

/-- Fetch oracle for the C1 witness: USD fails, BRL is the first currency
returning data for BTC. -/
def fetchW1 : String → List String → Except Unit Assoc := fun c _ =>
  if c = "USD" then Except.error ()
  else if c = "BRL" then Except.ok [("BTC", Json.obj [("name", Json.str "B")])]
  else Except.ok []

/-- Witness for c1_static_metadata_first_success at a concrete run. -/
theorem c1_witness :
    (getRec (collect_crypto_data "T" fetchW1 ["BTC"]
        (["USD"] ++ "BRL" :: ["EUR"])).map "BTC").map
      EnrichedRecord.staticPart
      = some (initRecord "T" "BTC" (Json.obj [("name", Json.str "B")])) := by
  refine c1_static_metadata_first_success "T" fetchW1 ["BTC"] ["USD"] ["EUR"]
    "BRL" "BTC" ["BTC"] [("BTC", Json.obj [("name", Json.str "B")])]
    (Json.obj [("name", Json.str "B")])
    (by decide) (by decide) (by decide) rfl rfl ?_
  intro c hc b2 hb2 hmem qq hq
  have hcU : c = "USD" := by simpa using hc
  rw [hcU] at hq
  simp [fetchW1] at hq

/-- C2: the requests issued by the collection loop are exactly the ordered
plan: for each currency in order, the contiguous symbol batches in order
(outer loop currencies, inner loop batches); the batches flatten back to
the symbol list (no omission, no duplication, order preserved) and each
batch is non-empty with at most 100 symbols. -/
theorem c2_plan_partition (now : String)
    (fetch : String → List String → Except Unit Assoc)
    (symbols currencies : List String) (hc : currencies ≠ []) :
    (collect_crypto_data now fetch symbols currencies).trace
        = planOf currencies (toBatches symbols)
    ∧ (toBatches symbols).flatten = symbols
    ∧ ∀ b ∈ toBatches symbols, b ≠ [] ∧ b.length ≤ 100 := by
  refine ⟨?_, toBatches_flatten symbols, toBatches_chunk_size symbols⟩
  rw [collect_trace, effCurrencies_of_ne_nil _ hc]

/-- Witness for c2_plan_partition at a concrete run. -/
theorem c2_witness :
    (collect_crypto_data "T" (fun _ _ => Except.error ()) ["BTC", "ETH"]
        ["USD", "BRL"]).trace
      = planOf ["USD", "BRL"] (toBatches ["BTC", "ETH"])
    ∧ (toBatches ["BTC", "ETH"]).flatten = ["BTC", "ETH"]
    ∧ ∀ b ∈ toBatches ["BTC", "ETH"], b ≠ [] ∧ b.length ≤ 100 :=
  c2_plan_partition "T" (fun _ _ => Except.error ()) ["BTC", "ETH"]
    ["USD", "BRL"] (by decide)

/-- C3: a batch whose request fails at the transport adds every symbol of
the batch to the failed set, keeps all previously failed symbols, and
leaves the record map (static fields and quote mappings of all previously
merged records) completely unchanged. -/
theorem c3_transport_failure_frame (now : String)
    (fetch : String → List String → Except Unit Assoc)
    (currency : String) (st : CollectState) (batch : List String)
    (h : fetch currency batch = Except.error ()) :
    (processBatch now fetch currency st batch).map = st.map
    ∧ (∀ s ∈ batch, s ∈ (processBatch now fetch currency st batch).failed)
    ∧ (∀ s ∈ st.failed, s ∈ (processBatch now fetch currency st batch).failed) := by
  refine ⟨?_, ?_, ?_⟩
  · simp only [processBatch, h]
  · intro s hs
    simp only [processBatch, h]
    exact (mem_foldl_addFailed batch st.failed s).mpr (Or.inr hs)
  · intro s hs
    simp only [processBatch, h]
    exact (mem_foldl_addFailed batch st.failed s).mpr (Or.inl hs)

/-- Witness for c3_transport_failure_frame at a concrete state. -/
theorem c3_witness :
    (processBatch "T" (fun _ _ => Except.error ()) "USD" initState
        ["BTC", "ETH"]).map = initState.map
    ∧ (∀ s ∈ ["BTC", "ETH"],
        s ∈ (processBatch "T" (fun _ _ => Except.error ()) "USD" initState
          ["BTC", "ETH"]).failed)
    ∧ (∀ s ∈ initState.failed,
        s ∈ (processBatch "T" (fun _ _ => Except.error ()) "USD" initState
          ["BTC", "ETH"]).failed) :=
  c3_transport_failure_frame "T" (fun _ _ => Except.error ()) "USD" initState
    ["BTC", "ETH"] rfl

/-- C5 counterexample: with a non-empty symbol list and an empty currency
list the code does not produce an empty plan; the empty currency list is
replaced by the default USD and a request is issued. -/
theorem c5_counterexample :
    (collect_crypto_data "T" (fun _ _ => Except.error ()) ["BTC"] []).trace
      = [("USD", ["BTC"])]
    ∧ (collect_crypto_data "T" (fun _ _ => Except.error ()) ["BTC"] []).trace
      ≠ [] := by
  have h1 : (collect_crypto_data "T" (fun _ _ => Except.error ()) ["BTC"] []).trace
      = [("USD", ["BTC"])] := rfl
  refine ⟨h1, ?_⟩
  rw [h1]
  simp

/-- C5 (amended): an empty symbol list yields an empty plan, an empty map
and an empty failed set, with no failure raised; an empty currency list is
replaced by the default list containing only USD, so the run behaves
exactly like a run over USD. -/
theorem c5_empty_inputs :
    (∀ (now : String) (fetch : String → List String → Except Unit Assoc)
        (currencies : List String),
      (collect_crypto_data now fetch [] currencies).trace = []
      ∧ (collect_crypto_data now fetch [] currencies).map = []
      ∧ (collect_crypto_data now fetch [] currencies).failed = [])
    ∧ (∀ (now : String) (fetch : String → List String → Except Unit Assoc)
        (symbols : List String),
      collect_crypto_data now fetch symbols []
        = collect_crypto_data now fetch symbols ["USD"]) := by
  constructor
  · intro now fetch currencies
    rw [collect_nil_symbols]
    exact ⟨rfl, rfl, rfl⟩
  · intro now fetch symbols
    rfl

/-- The transient HTTP statuses of the Retry strategy configured in
_create_session (status_forcelist). -/
def STATUS_FORCELIST : List Nat := [429, 500, 502, 503, 504]

/-- Final outcome of the session-level GET: a response with a status, or
the adapter giving up after exhausting its retries. -/
inductive HttpOutcome where
  | response (status : Nat)
  | retriesExhausted
deriving Repr, DecidableEq

/-- The urllib3 retry loop of the mounted adapter: the first argument is
the number of retries still allowed (total = 5 at the start), the second
the index of the next attempt; resp gives the HTTP status of each attempt.
Returns the number of attempts performed and the outcome. -/
def runRetry (resp : Nat → Nat) : Nat → Nat → Nat × HttpOutcome
  | 0, i =>
    if resp i ∈ STATUS_FORCELIST then (i + 1, HttpOutcome.retriesExhausted)
    else (i + 1, HttpOutcome.response (resp i))
  | r + 1, i =>
    if resp i ∈ STATUS_FORCELIST then runRetry resp r (i + 1)
    else (i + 1, HttpOutcome.response (resp i))

/-- Python status.get('error_code') != 0 on the embedded JSON: only the
literal number 0 passes; a missing key (None) compares unequal to 0. -/
def errorCodeIsZero : Option Json → Bool
  | some (Json.num 0) => true
  | _ => false

/-- The application-level envelope validation of _make_request: read
data.get('status', {}), then raise unless its error_code equals 0. -/
def checkEnvelope (data : Json) : Except Unit Json :=
  if errorCodeIsZero (Json.get? ((data.get? "status").getD (Json.obj [])) "error_code")
  then Except.ok data
  else Except.error ()

/-- One _make_request call: the logical request counter increments by one,
the session GET retries transient statuses internally (Retry total=5,
backoff factor 2), raise_for_status raises on a 4xx or 5xx final status,
and a 200 body is validated against the embedded status envelope.
Returns (new request_count, HTTP attempts performed, result). -/
def makeRequest (resp : Nat → Nat) (body : Json) (request_count : Nat) :
    Nat × Nat × Except Unit Json :=
  let request_count := request_count + 1
  let out := runRetry resp 5 0
  match out.2 with
  | HttpOutcome.retriesExhausted => (request_count, out.1, Except.error ())
  | HttpOutcome.response s =>
    if 400 ≤ s then (request_count, out.1, Except.error ())
    else (request_count, out.1, checkEnvelope body)

/-- The status sequence of the C4 scenario: HTTP 429 on the first three
attempts, then 200. -/
def resp429 (i : Nat) : Nat := if i < 3 then 429 else 200

/-- A well-formed 200 body with a zero error_code and one quoted symbol. -/
def scenarioBody : Json :=
  Json.obj
    [ ("status", Json.obj [("error_code", Json.num 0)])
    , ("data", Json.obj [("BTC", Json.obj [("name", Json.str "Bitcoin")])]) ]

/-- The dict extracted by response.get('data', {}) from a response body. -/
def responseData (body : Json) : Assoc :=
  match (body.get? "data").getD (Json.obj []) with
  | Json.obj fields => fields
  | _ => []

/-- Fetch oracle realising the C4 scenario through the transport model. -/
def scenarioFetch : String → List String → Except Unit Assoc := fun _ _ =>
  Except.map responseData (makeRequest resp429 scenarioBody 0).2.2

/-- C4 counterexample: in the 429-429-429-200 scenario the HTTP layer
performs 4 attempts, but the request counter of the client (incremented
once per _make_request call, not per attempt) ends at 1, not 4. -/
theorem c4_counterexample :
    (makeRequest resp429 scenarioBody 0).2.1 = 4
    ∧ (makeRequest resp429 scenarioBody 0).1 = 1
    ∧ (makeRequest resp429 scenarioBody 0).1 ≠ 4 := by
  have h1 : (makeRequest resp429 scenarioBody 0).1 = 1 := rfl
  refine ⟨rfl, h1, ?_⟩
  rw [h1]
  decide

/-- C4 (amended): in the 429-429-429-200 scenario the session performs 4
HTTP attempts and succeeds, the client request counter increments by
exactly one, and the merge step for the batch runs exactly once on the
successful response, producing the merged record. -/
theorem c4_retry_scenario :
    (makeRequest resp429 scenarioBody 0).2.1 = 4
    ∧ (makeRequest resp429 scenarioBody 0).2.2 = Except.ok scenarioBody
    ∧ (makeRequest resp429 scenarioBody 0).1 = 1
    ∧ (collect_crypto_data "T" scenarioFetch ["BTC"] ["USD"]).merges = 1
    ∧ (getRec (collect_crypto_data "T" scenarioFetch ["BTC"] ["USD"]).map
        "BTC").isSome = true :=
  ⟨rfl, rfl, rfl, rfl, rfl⟩

/-- A 200 body whose status envelope has no error_code key at all. -/
def noCodeBody : Json :=
  Json.obj
    [ ("status", Json.obj [("credit_count", Json.num 1)])
    , ("data", Json.obj []) ]

/-- C7 counterexample: an HTTP 200 response whose status envelope lacks
the error_code key is not treated as success: the None value compares
unequal to 0 and _make_request raises after a single attempt. -/
theorem c7_counterexample :
    (makeRequest (fun _ => 200) noCodeBody 0).2.2 = Except.error ()
    ∧ (makeRequest (fun _ => 200) noCodeBody 0).2.1 = 1 :=
  ⟨rfl, rfl⟩

/-- C7 (amended): when the first attempt already returns HTTP 200, exactly
one attempt is performed (no retry whatever the envelope holds), and the
call succeeds with the parsed body exactly when the status envelope
carries error_code equal to 0; a missing key or any other value, such as a
non-zero error code, fails as a logical API error without retry. -/
theorem c7_envelope_validation (resp : Nat → Nat) (body : Json) (count : Nat)
    (h0 : resp 0 = 200) :
    (makeRequest resp body count).2.1 = 1
    ∧ ((makeRequest resp body count).2.2
        = if errorCodeIsZero
            (Json.get? ((body.get? "status").getD (Json.obj [])) "error_code")
          then Except.ok body else Except.error ()) := by
  have hmem : resp 0 ∉ STATUS_FORCELIST := by
    rw [h0]
    simp [STATUS_FORCELIST]
  have hrun : runRetry resp 5 0 = (1, HttpOutcome.response 200) := by
    unfold runRetry
    rw [if_neg hmem, h0]
  unfold makeRequest
  rw [hrun]
  refine ⟨rfl, ?_⟩
  norm_num
  rfl

/-- Witness for c7_envelope_validation at a concrete input: the envelope
carries error_code 7, the call fails after one attempt. -/
theorem c7_witness :
    (makeRequest (fun _ => 200)
        (Json.obj [("status", Json.obj [("error_code", Json.num 7)])]) 0).2.1 = 1
    ∧ ((makeRequest (fun _ => 200)
        (Json.obj [("status", Json.obj [("error_code", Json.num 7)])]) 0).2.2
        = if errorCodeIsZero
            (Json.get? (((Json.obj [("status", Json.obj [("error_code", Json.num 7)])]).get?
              "status").getD (Json.obj [])) "error_code")
          then Except.ok (Json.obj [("status", Json.obj [("error_code", Json.num 7)])])
          else Except.error ()) :=
  c7_envelope_validation (fun _ => 200)
    (Json.obj [("status", Json.obj [("error_code", Json.num 7)])]) 0 rfl

/-- The enriched dict built by get_global_market_data: the process-wide
metadata fields plus the per-currency quotes mapping. -/
structure GlobalRecord where
  atTimestamp : String
  active_cryptocurrencies : Json
  active_exchanges : Json
  active_market_pairs : Json
  btc_dominance : Json
  eth_dominance : Json
  defi_volume_24h : Json
  defi_market_cap : Json
  stablecoin_volume_24h : Json
  stablecoin_market_cap : Json
  last_updated : Json
  quotes : Assoc
deriving Repr

/-- The starting record of get_global_market_data: only the timestamp and
an empty quotes dict; every metadata key is still absent (None). -/
def initGlobal (now : String) : GlobalRecord :=
  { atTimestamp := now
    active_cryptocurrencies := Json.null
    active_exchanges := Json.null
    active_market_pairs := Json.null
    btc_dominance := Json.null
    eth_dominance := Json.null
    defi_volume_24h := Json.null
    defi_market_cap := Json.null
    stablecoin_volume_24h := Json.null
    stablecoin_market_cap := Json.null
    last_updated := Json.null
    quotes := [] }

/-- Python truthiness of the embedded JSON values (None, 0, empty string,
empty list and empty dict are falsy). -/
def Json.falsy : Json → Bool
  | .null => true
  | .bool b => ! b
  | .num n => n == 0
  | .str s => s.isEmpty
  | .arr xs => xs.isEmpty
  | .obj fs => fs.isEmpty

/-- The enriched_data.update({...}) call filling the general metadata. -/
def updateMeta (g : GlobalRecord) (data : Json) : GlobalRecord :=
  { g with
    active_cryptocurrencies := data.getD "active_cryptocurrencies"
    active_exchanges := data.getD "active_exchanges"
    active_market_pairs := data.getD "active_market_pairs"
    btc_dominance := data.getD "btc_dominance"
    eth_dominance := data.getD "eth_dominance"
    defi_volume_24h := data.getD "defi_volume_24h"
    defi_market_cap := data.getD "defi_market_cap"
    stablecoin_volume_24h := data.getD "stablecoin_volume_24h"
    stablecoin_market_cap := data.getD "stablecoin_market_cap"
    last_updated := data.getD "last_updated" }

/-- The per-currency aggregate slice stored in the global quotes dict. -/
def globalQuoteSlice (curr_data : Json) : Json :=
  Json.obj
    [ ("total_market_cap", curr_data.getD "total_market_cap")
    , ("total_volume_24h", curr_data.getD "total_volume_24h")
    , ("altcoin_volume_24h", curr_data.getD "altcoin_volume_24h")
    , ("altcoin_market_cap", curr_data.getD "altcoin_market_cap")
    , ("last_updated", curr_data.getD "last_updated") ]

/-- One iteration of the currency loop of get_global_market_data: fetch
the metrics (an exception aborts the whole call), fill the metadata when
enriched_data.get('active_cryptocurrencies') is still falsy, and append
the aggregate figures when the response nests data for the currency. -/
def globalStep (fetch : String → Except Unit Json) (g : GlobalRecord)
    (currency : String) : Except Unit GlobalRecord :=
  match fetch currency with
  | Except.error e => Except.error e
  | Except.ok data =>
    let g1 := if g.active_cryptocurrencies.falsy then updateMeta g data else g
    match Json.get? ((data.get? "quote").getD (Json.obj [])) currency with
    | some curr_data =>
      Except.ok { g1 with quotes := setKey g1.quotes currency (globalQuoteSlice curr_data) }
    | none => Except.ok g1

/-- get_global_market_data: the currency loop threaded through the Except
monad, since any fetch failure propagates out of the function. -/
def get_global_market_data (now : String) (fetch : String → Except Unit Json)
    (convert_currencies : List String) : Except Unit GlobalRecord :=
  (effCurrencies convert_currencies).foldlM (globalStep fetch) (initGlobal now)

/-- The process-wide metadata of a global record: everything except the
timestamp and the per-currency quotes. -/
def GlobalRecord.metaPart (g : GlobalRecord) : GlobalRecord :=
  { g with atTimestamp := "", quotes := [] }

theorem getKey_cons (p : String × Json) (ps : Assoc) (s : String) :
    getKey (p :: ps) s = if p.1 = s then some p.2 else getKey ps s := by
  by_cases hp : p.1 = s <;> simp [getKey, List.find?, hp]

theorem setKey_cons (p : String × Json) (ps : Assoc) (k : String) (v : Json) :
    setKey (p :: ps) k v
      = if p.1 = k then (k, v) :: ps.map (fun q => if q.1 = k then (k, v) else q)
        else p :: setKey ps k v := by
  by_cases hp : p.1 = k
  · simp [setKey, hp]
  · cases hany : ps.any (fun q => q.1 = k) with
    | true => simp [setKey, hp, hany]
    | false => simp [setKey, hp, hany]

theorem getKey_map_replace_ne (m : Assoc) (k t : String) (v : Json)
    (h : k ≠ t) :
    getKey (m.map (fun q => if q.1 = k then (k, v) else q)) t = getKey m t := by
  induction m with
  | nil => rfl
  | cons p ps ih =>
    rw [List.map_cons]
    by_cases hp : p.1 = k
    · rw [if_pos hp, getKey_cons, getKey_cons, if_neg h, ih]
      have hpt : ¬ p.1 = t := by rw [hp]; exact h
      rw [if_neg hpt]
    · rw [if_neg hp, getKey_cons, getKey_cons, ih]

theorem getKey_setKey (m : Assoc) (k t : String) (v : Json) :
    getKey (setKey m k v) t = if k = t then some v else getKey m t := by
  induction m with
  | nil =>
    by_cases hk : k = t <;> simp [setKey, getKey, List.find?, hk]
  | cons p ps ih =>
    rw [setKey_cons]
    by_cases hp : p.1 = k
    · rw [if_pos hp, getKey_cons]
      by_cases hk : k = t
      · rw [if_pos hk, if_pos hk]
      · rw [if_neg hk, if_neg hk, getKey_map_replace_ne ps k t v hk, getKey_cons]
        have hpt : ¬ p.1 = t := by rw [hp]; exact hk
        rw [if_neg hpt]
    · rw [if_neg hp, getKey_cons, getKey_cons]
      by_cases hpt : p.1 = t
      · have hk : ¬ k = t := by
          intro hkt
          exact hp (by rw [hpt, hkt])
        rw [if_pos hpt, if_neg hk, if_pos hpt]
      · rw [if_neg hpt, if_neg hpt, ih]

theorem getKey_setKey_self (m : Assoc) (k : String) (v : Json) :
    getKey (setKey m k v) k = some v := by
  rw [getKey_setKey, if_pos rfl]

theorem getKey_setKey_ne (m : Assoc) (k t : String) (v : Json) (h : k ≠ t) :
    getKey (setKey m k v) t = getKey m t := by
  rw [getKey_setKey, if_neg h]

theorem except_bind_ok {α β : Type} (a : α) (f : α → Except Unit β) :
    (Except.ok a >>= f) = f a := rfl

theorem globalStep_err (fetch : String → Except Unit Json) (g : GlobalRecord)
    (c : String) (h : fetch c = Except.error ()) :
    globalStep fetch g c = Except.error () := by
  simp [globalStep, h]

theorem globalStep_ok_quote (fetch : String → Except Unit Json)
    (g : GlobalRecord) (c : String) (d cd : Json)
    (h : fetch c = Except.ok d)
    (hq : Json.get? ((d.get? "quote").getD (Json.obj [])) c = some cd) :
    globalStep fetch g c = Except.ok
      { (if g.active_cryptocurrencies.falsy then updateMeta g d else g) with
        quotes := setKey
          (if g.active_cryptocurrencies.falsy then updateMeta g d else g).quotes
          c (globalQuoteSlice cd) } := by
  simp [globalStep, h, hq]

theorem globalStep_ok_noquote (fetch : String → Except Unit Json)
    (g : GlobalRecord) (c : String) (d : Json)
    (h : fetch c = Except.ok d)
    (hq : Json.get? ((d.get? "quote").getD (Json.obj [])) c = none) :
    globalStep fetch g c
      = Except.ok (if g.active_cryptocurrencies.falsy then updateMeta g d else g) := by
  simp [globalStep, h, hq]

theorem metaPart_quotes_update (g : GlobalRecord) (q : Assoc) :
    ({ g with quotes := q } : GlobalRecord).metaPart = g.metaPart := rfl

theorem metaPart_updateMeta (g g2 : GlobalRecord) (d : Json) :
    (updateMeta g d).metaPart = (updateMeta g2 d).metaPart := rfl

theorem globalFold_meta_preserved (fetch : String → Except Unit Json) :
    ∀ (L : List String) (g : GlobalRecord),
      (∀ c2 ∈ L, ∃ d2, fetch c2 = Except.ok d2) →
      g.active_cryptocurrencies.falsy = false →
      ∃ g2, L.foldlM (globalStep fetch) g = Except.ok g2
        ∧ g2.metaPart = g.metaPart := by
  intro L
  induction L with
  | nil => intro g _ _; exact ⟨g, rfl, rfl⟩
  | cons c2 L ih =>
    intro g hok hfalsy
    obtain ⟨d2, hd2⟩ := hok c2 (List.mem_cons_self _ _)
    have hokL : ∀ c3 ∈ L, ∃ d3, fetch c3 = Except.ok d3 :=
      fun c3 h3 => hok c3 (List.mem_cons_of_mem _ h3)
    cases hq : Json.get? ((d2.get? "quote").getD (Json.obj [])) c2 with
    | some cd =>
      have hstep := globalStep_ok_quote fetch g c2 d2 cd hd2 hq
      rw [if_neg (by simp [hfalsy])] at hstep
      rw [List.foldlM_cons, hstep, except_bind_ok]
      obtain ⟨g2, hg2, hmeta⟩ :=
        ih { g with quotes := setKey g.quotes c2 (globalQuoteSlice cd) } hokL
          (by simpa using hfalsy)
      exact ⟨g2, hg2, by rw [hmeta, metaPart_quotes_update]⟩
    | none =>
      have hstep := globalStep_ok_noquote fetch g c2 d2 hd2 hq
      rw [if_neg (by simp [hfalsy])] at hstep
      rw [List.foldlM_cons, hstep, except_bind_ok]
      exact ih _ hokL hfalsy

theorem globalFold_falsy (fetch : String → Except Unit Json) :
    ∀ (L : List String) (g : GlobalRecord),
      (∀ c2 ∈ L, ∃ d2, fetch c2 = Except.ok d2
        ∧ (d2.getD "active_cryptocurrencies").falsy = true) →
      g.active_cryptocurrencies.falsy = true →
      ∃ g2, L.foldlM (globalStep fetch) g = Except.ok g2
        ∧ g2.active_cryptocurrencies.falsy = true := by
  intro L
  induction L with
  | nil => intro g _ h; exact ⟨g, rfl, h⟩
  | cons c2 L ih =>
    intro g hok hfalsy
    obtain ⟨d2, hd2, hdf⟩ := hok c2 (List.mem_cons_self _ _)
    have hokL : ∀ c3 ∈ L, ∃ d3, fetch c3 = Except.ok d3
        ∧ (d3.getD "active_cryptocurrencies").falsy = true :=
      fun c3 h3 => hok c3 (List.mem_cons_of_mem _ h3)
    cases hq : Json.get? ((d2.get? "quote").getD (Json.obj [])) c2 with
    | some cd =>
      have hstep := globalStep_ok_quote fetch g c2 d2 cd hd2 hq
      rw [if_pos (by simp [hfalsy])] at hstep
      rw [List.foldlM_cons, hstep, except_bind_ok]
      exact ih _ hokL (by simpa [updateMeta] using hdf)
    | none =>
      have hstep := globalStep_ok_noquote fetch g c2 d2 hd2 hq
      rw [if_pos (by simp [hfalsy])] at hstep
      rw [List.foldlM_cons, hstep, except_bind_ok]
      exact ih _ hokL (by simpa [updateMeta] using hdf)

theorem globalFold_quotes (fetch : String → Except Unit Json) :
    ∀ (L : List String) (g : GlobalRecord),
      (∀ c2 ∈ L, ∃ d2, fetch c2 = Except.ok d2) → L.Nodup →
      ∃ g2, L.foldlM (globalStep fetch) g = Except.ok g2
        ∧ (∀ k, k ∉ L → getKey g2.quotes k = getKey g.quotes k)
        ∧ (∀ c2 ∈ L, ∀ d2, fetch c2 = Except.ok d2 →
            ∀ cd, Json.get? ((d2.get? "quote").getD (Json.obj [])) c2 = some cd →
              getKey g2.quotes c2 = some (globalQuoteSlice cd)) := by
  intro L
  induction L with
  | nil =>
    intro g _ _
    refine ⟨g, rfl, fun k _ => rfl, fun c2 h2 => absurd h2 (List.not_mem_nil c2)⟩
  | cons c2 L ih =>
    intro g hok hnodup
    obtain ⟨d2, hd2⟩ := hok c2 (List.mem_cons_self _ _)
    have hokL : ∀ c3 ∈ L, ∃ d3, fetch c3 = Except.ok d3 :=
      fun c3 h3 => hok c3 (List.mem_cons_of_mem _ h3)
    have hc2L : c2 ∉ L := by
      intro hmem
      exact (List.pairwise_cons.mp hnodup).1 c2 hmem rfl
    have hnodupL : L.Nodup := (List.pairwise_cons.mp hnodup).2
    cases hq : Json.get? ((d2.get? "quote").getD (Json.obj [])) c2 with
    | some cd =>
      have hstep := globalStep_ok_quote fetch g c2 d2 cd hd2 hq
      rw [List.foldlM_cons, hstep, except_bind_ok]
      have hqts : (if g.active_cryptocurrencies.falsy then updateMeta g d2 else g).quotes
          = g.quotes := by
        by_cases hf : g.active_cryptocurrencies.falsy <;> simp [hf, updateMeta]
      obtain ⟨g2, hg2, hframe, hset⟩ := ih _ hokL hnodupL
      refine ⟨g2, hg2, ?_, ?_⟩
      · intro k hk
        have hk2 : ¬ k = c2 := fun he => hk (he ▸ List.mem_cons_self _ _)
        have hkL : k ∉ L := fun hm => hk (List.mem_cons_of_mem _ hm)
        rw [hframe k hkL]
        show getKey (setKey
          (if g.active_cryptocurrencies.falsy then updateMeta g d2 else g).quotes
          c2 (globalQuoteSlice cd)) k = getKey g.quotes k
        rw [hqts]
        exact getKey_setKey_ne _ c2 k _ (fun he => hk2 he.symm)
      · intro c3 h3 d3 hd3 cd3 hq3
        rcases List.mem_cons.mp h3 with he | hm
        · subst he
          have hdd : d3 = d2 := by
            rw [hd2] at hd3
            exact (Except.ok.injEq _ _).mp hd3.symm
          subst hdd
          rw [hq] at hq3
          have hcd : cd3 = cd := (Option.some.injEq _ _).mp hq3.symm
          subst hcd
          rw [hframe c3 hc2L]
          dsimp only
          rw [hqts]
          exact getKey_setKey_self _ c3 _
        · exact hset c3 hm d3 hd3 cd3 hq3
    | none =>
      have hstep := globalStep_ok_noquote fetch g c2 d2 hd2 hq
      rw [List.foldlM_cons, hstep, except_bind_ok]
      obtain ⟨g2, hg2, hframe, hset⟩ := ih _ hokL hnodupL
      refine ⟨g2, hg2, ?_, ?_⟩
      · intro k hk
        have hkL : k ∉ L := fun hm => hk (List.mem_cons_of_mem _ hm)
        rw [hframe k hkL]
        by_cases hfalsy : g.active_cryptocurrencies.falsy <;>
          simp [hfalsy, updateMeta]
      · intro c3 h3 d3 hd3 cd3 hq3
        rcases List.mem_cons.mp h3 with he | hm
        · subst he
          have hdd : d3 = d2 := by
            rw [hd2] at hd3
            exact (Except.ok.injEq _ _).mp hd3.symm
          subst hdd
          rw [hq] at hq3
          exact absurd hq3 (by simp)
        · exact hset c3 hm d3 hd3 cd3 hq3

/-- C6 (amended): over currencies pre ++ c :: post where every fetch of
pre succeeds but returns a falsy active_cryptocurrencies, c succeeds with
a truthy one, and every later fetch succeeds: the process-wide metadata of
the snapshot equals the metadata taken from the response of c and later
currencies never overwrite it; and for every currency of the run whose
response carries its own quote key, its aggregate figures are stored in
the per-currency quotes mapping. A fetch failure of any currency aborts
the whole snapshot instead. -/
theorem c6_global_merge (now : String) (fetch : String → Except Unit Json)
    (pre post : List String) (c : String) (d : Json)
    (hnodup : (pre ++ c :: post).Nodup)
    (hpre : ∀ c2 ∈ pre, ∃ d2, fetch c2 = Except.ok d2
      ∧ (d2.getD "active_cryptocurrencies").falsy = true)
    (hc : fetch c = Except.ok d)
    (hd : (d.getD "active_cryptocurrencies").falsy = false)
    (hpost : ∀ c2 ∈ post, ∃ d2, fetch c2 = Except.ok d2) :
    ∃ g, get_global_market_data now fetch (pre ++ c :: post) = Except.ok g
      ∧ g.metaPart = (updateMeta (initGlobal "") d).metaPart
      ∧ (∀ c2 ∈ pre ++ c :: post, ∀ d2, fetch c2 = Except.ok d2 →
          ∀ cd, Json.get? ((d2.get? "quote").getD (Json.obj [])) c2 = some cd →
            getKey g.quotes c2 = some (globalQuoteSlice cd)) := by
  have heff : effCurrencies (pre ++ c :: post) = pre ++ c :: post :=
    effCurrencies_of_ne_nil _ (by simp)
  have hrun : get_global_market_data now fetch (pre ++ c :: post)
      = (pre ++ c :: post).foldlM (globalStep fetch) (initGlobal now) := by
    unfold get_global_market_data
    rw [heff]
  have hallok : ∀ c2 ∈ pre ++ c :: post, ∃ d2, fetch c2 = Except.ok d2 := by
    intro c2 h2
    rcases List.mem_append.mp h2 with hL | hR
    · obtain ⟨d2, hd2, _⟩ := hpre c2 hL
      exact ⟨d2, hd2⟩
    · rcases List.mem_cons.mp hR with he | hm
      · exact he ▸ ⟨d, hc⟩
      · exact hpost c2 hm
  obtain ⟨g1, hg1, hg1f⟩ := globalFold_falsy fetch pre (initGlobal now) hpre rfl
  obtain ⟨gq, hgq, hqframe, hqprop⟩ :=
    globalFold_quotes fetch (pre ++ c :: post) (initGlobal now) hallok hnodup
  cases hq : Json.get? ((d.get? "quote").getD (Json.obj [])) c with
  | some cd =>
    have hstep := globalStep_ok_quote fetch g1 c d cd hc hq
    rw [if_pos hg1f] at hstep
    have hg2f : ({ updateMeta g1 d with
        quotes := setKey (updateMeta g1 d).quotes c (globalQuoteSlice cd)
        } : GlobalRecord).active_cryptocurrencies.falsy = false := hd
    obtain ⟨g3, hg3, hmeta3⟩ := globalFold_meta_preserved fetch post _ hpost hg2f
    have hfull : (pre ++ c :: post).foldlM (globalStep fetch) (initGlobal now)
        = Except.ok g3 := by
      rw [List.foldlM_append, hg1, except_bind_ok, List.foldlM_cons, hstep,
        except_bind_ok, hg3]
    have hg3q : gq = g3 := by
      rw [hfull] at hgq
      exact ((Except.ok.injEq _ _).mp hgq).symm
    refine ⟨g3, by rw [hrun, hfull], ?_, ?_⟩
    · rw [hmeta3, metaPart_quotes_update]
      exact metaPart_updateMeta g1 (initGlobal "") d
    · intro c2 h2 d2 hd2 cd2 hq2
      rw [← hg3q]
      exact hqprop c2 h2 d2 hd2 cd2 hq2
  | none =>
    have hstep := globalStep_ok_noquote fetch g1 c d hc hq
    rw [if_pos hg1f] at hstep
    have hg2f : (updateMeta g1 d).active_cryptocurrencies.falsy = false := hd
    obtain ⟨g3, hg3, hmeta3⟩ := globalFold_meta_preserved fetch post _ hpost hg2f
    have hfull : (pre ++ c :: post).foldlM (globalStep fetch) (initGlobal now)
        = Except.ok g3 := by
      rw [List.foldlM_append, hg1, except_bind_ok, List.foldlM_cons, hstep,
        except_bind_ok, hg3]
    have hg3q : gq = g3 := by
      rw [hfull] at hgq
      exact ((Except.ok.injEq _ _).mp hgq).symm
    refine ⟨g3, by rw [hrun, hfull], ?_, ?_⟩
    · rw [hmeta3]
      exact metaPart_updateMeta g1 (initGlobal "") d
    · intro c2 h2 d2 hd2 cd2 hq2
      rw [← hg3q]
      exact hqprop c2 h2 d2 hd2 cd2 hq2

/-- Global metrics data of the C6 counterexample under USD: the response
succeeds and carries its quote key but no active_cryptocurrencies. -/
def gdataUSD : Json :=
  Json.obj [("quote", Json.obj [("USD", Json.obj [("total_market_cap", Json.num 7)])])]

/-- Global metrics data of the C6 counterexample under BRL: carries a
truthy active_cryptocurrencies and its own quote key. -/
def gdataBRL : Json :=
  Json.obj
    [ ("active_cryptocurrencies", Json.num 42)
    , ("quote", Json.obj [("BRL", Json.obj [("total_market_cap", Json.num 9)])]) ]

/-- Fetch oracle where both currencies succeed. -/
def fetchG1 : String → Except Unit Json := fun c =>
  if c = "USD" then Except.ok gdataUSD
  else if c = "BRL" then Except.ok gdataBRL
  else Except.ok (Json.obj [])

/-- Fetch oracle where the first currency fails and the second succeeds. -/
def fetchG2 : String → Except Unit Json := fun c =>
  if c = "USD" then Except.error ()
  else Except.ok gdataBRL

/-- C6 counterexample: first, USD succeeds first but its data carries no
active_cryptocurrencies, so BRL later overwrites the metadata: the first
successful currency does not win. Second, when USD fails, the whole call
aborts, so the BRL aggregates are not appended even though the BRL
response carries its quote key: appending is not independent of prior
currency failure. -/
theorem c6_counterexample :
    Except.map (fun g => g.active_cryptocurrencies)
        (get_global_market_data "T" fetchG1 ["USD", "BRL"])
      = Except.ok (Json.num 42)
    ∧ gdataUSD.getD "active_cryptocurrencies" = Json.null
    ∧ (Json.num 42 : Json) ≠ Json.null
    ∧ get_global_market_data "T" fetchG2 ["USD", "BRL"] = Except.error ()
    ∧ Json.get? ((gdataBRL.get? "quote").getD (Json.obj [])) "BRL"
      = some (Json.obj [("total_market_cap", Json.num 9)]) := by
  refine ⟨rfl, rfl, ?_, rfl, rfl⟩
  simp

/-- Global metrics data of the C6 witness under USD. -/
def gdataW : Json :=
  Json.obj
    [ ("active_cryptocurrencies", Json.num 5)
    , ("quote", Json.obj [("USD", Json.obj [("total_market_cap", Json.num 3)])]) ]

/-- Fetch oracle for the C6 witness. -/
def fetchW6 : String → Except Unit Json := fun c =>
  if c = "USD" then Except.ok gdataW
  else Except.ok gdataBRL

/-- Witness for c6_global_merge at a concrete run over USD then BRL. -/
theorem c6_witness :
    ∃ g, get_global_market_data "T" fetchW6 ([] ++ "USD" :: ["BRL"]) = Except.ok g
      ∧ g.metaPart = (updateMeta (initGlobal "") gdataW).metaPart
      ∧ (∀ c2 ∈ [] ++ "USD" :: ["BRL"], ∀ d2, fetchW6 c2 = Except.ok d2 →
          ∀ cd, Json.get? ((d2.get? "quote").getD (Json.obj [])) c2 = some cd →
            getKey g.quotes c2 = some (globalQuoteSlice cd)) := by
  refine c6_global_merge "T" fetchW6 [] ["BRL"] "USD" gdataW
    (by decide) ?_ rfl rfl ?_
  · intro c2 h2
    exact absurd h2 (List.not_mem_nil c2)
  · intro c2 h2
    have hb : c2 = "BRL" := by simpa using h2
    rw [hb]
    exact ⟨gdataBRL, rfl⟩

/-- Whitespace test of the JSON grammar, by code point. -/
def isWsChar (c : Char) : Bool :=
  c.toNat = 32 || c.toNat = 9 || c.toNat = 10 || c.toNat = 13

/-- Decimal digit test, by code point. -/
def isDigitChar (c : Char) : Bool :=
  48 ≤ c.toNat && c.toNat ≤ 57

/-- The escape of one character as performed by json.dump with
ensure_ascii False: quote and backslash are escaped, the named control
characters get their short escapes, the other control characters the
uXXXX form, and everything else passes through unescaped. -/
def escChar (c : Char) : List Char :=
  if c = '"' then ['\\', '"']
  else if c = '\\' then ['\\', '\\']
  else if c = '\n' then ['\\', 'n']
  else if c = '\t' then ['\\', 't']
  else if c = '\r' then ['\\', 'r']
  else if c = '\x08' then ['\\', 'b']
  else if c = '\x0c' then ['\\', 'f']
  else if c.toNat < 32 then
    ['\\', 'u', '0', '0', Nat.digitChar (c.toNat / 16), Nat.digitChar (c.toNat % 16)]
  else [c]

/-- Escape of a whole string body. -/
def escString (s : List Char) : List Char :=
  (s.map escChar).flatten

/-- Fuel-driven helper for the decimal rendering of a Nat; the fuel only
forces structural recursion. -/
def natCharsGo : Nat → Nat → List Char
  | 0, _ => []
  | fuel + 1, n =>
    if n < 10 then [Nat.digitChar n]
    else natCharsGo fuel (n / 10) ++ [Nat.digitChar (n % 10)]

/-- Decimal rendering of a Nat, as json.dump writes integers. -/
def natChars (n : Nat) : List Char := natCharsGo (n + 1) n

/-- Decimal rendering of an Int. -/
def intChars : Int → List Char
  | Int.ofNat n => natChars n
  | Int.negSucc n => '-' :: natChars (n + 1)

mutual
/-- Compact serialization of a JSON value, character for character what
json.dump(obj, ensure_ascii=False) writes: default separators are a comma
followed by a space between items and a colon followed by a space after
keys, with no indentation and no trailing separators. -/
def dumpChars : Json → List Char
  | .null => ("null" : String).data
  | .bool true => ("true" : String).data
  | .bool false => ("false" : String).data
  | .num n => intChars n
  | .str s => '"' :: (escString s.data ++ ['"'])
  | .arr xs => '[' :: (dumpElems xs ++ [']'])
  | .obj fs => '{' :: (dumpFields fs ++ ['}'])

/-- Serialization of the items of an array, separated by comma-space. -/
def dumpElems : List Json → List Char
  | [] => []
  | x :: xs => dumpChars x ++ dumpElemsRest xs

/-- Serialization of the items after the first one. -/
def dumpElemsRest : List Json → List Char
  | [] => []
  | x :: xs => ',' :: ' ' :: (dumpChars x ++ dumpElemsRest xs)

/-- Serialization of the members of an object. -/
def dumpFields : List (String × Json) → List Char
  | [] => []
  | kv :: fs => fieldChars kv ++ dumpFieldsRest fs

/-- Serialization of the members after the first one. -/
def dumpFieldsRest : List (String × Json) → List Char
  | [] => []
  | kv :: fs => ',' :: ' ' :: (fieldChars kv ++ dumpFieldsRest fs)

/-- Serialization of one member: quoted key, colon, space, value. -/
def fieldChars : String × Json → List Char
  | (k, v) => '"' :: (escString k.data ++ '"' :: ':' :: ' ' :: dumpChars v)
end

/-- Compact single-line serialization as a string. -/
def Json.dump (j : Json) : String := String.mk (dumpChars j)

/-- The file content written by save_ndjson: for each record, its compact
JSON serialization followed by a newline (no enclosing array, no trailing
comma). -/
def ndjsonContent (records : List Json) : String :=
  records.foldl (fun acc r => acc ++ Json.dump r ++ "\n") ""

/-- Fuel-driven helper for splitNl; the fuel only forces structural
recursion and is always at least the length of the stream. -/
def splitNlGo : Nat → List Char → List (List Char)
  | _, [] => []
  | 0, _ :: _ => []
  | fuel + 1, cs =>
    let line := cs.takeWhile (fun c => c ≠ '\n')
    match cs.dropWhile (fun c => c ≠ '\n') with
    | [] => [line]
    | _ :: rest => line :: splitNlGo fuel rest

/-- Splitting a character stream into newline-terminated lines, as reading
the file back line by line yields them (terminators stripped, no empty
final line after the trailing newline). -/
def splitNl (cs : List Char) : List (List Char) :=
  splitNlGo cs.length cs

/-- Skip JSON whitespace. -/
def skipWs (cs : List Char) : List Char := cs.dropWhile isWsChar

/-- Numeric value of one decimal digit character. -/
def digitVal (c : Char) : Nat := c.toNat - 48

/-- Numeric value of a run of decimal digit characters. -/
def digitsVal (ds : List Char) : Nat :=
  ds.foldl (fun a c => 10 * a + digitVal c) 0

/-- Parse a non-empty run of decimal digits into a Nat. -/
def pNat (cs : List Char) : Option (Nat × List Char) :=
  match cs.takeWhile isDigitChar with
  | [] => none
  | ds => some (digitsVal ds, cs.dropWhile isDigitChar)

/-- Parse an optionally negated decimal integer. -/
def pInt : List Char → Option (Int × List Char)
  | '-' :: cs => (pNat cs).map (fun p => (-(p.1 : Int), p.2))
  | cs => (pNat cs).map (fun p => ((p.1 : Int), p.2))

/-- Numeric value of one hexadecimal digit character. -/
def hexVal (c : Char) : Option Nat :=
  if 48 ≤ c.toNat ∧ c.toNat ≤ 57 then some (c.toNat - 48)
  else if 97 ≤ c.toNat ∧ c.toNat ≤ 102 then some (c.toNat - 87)
  else if 65 ≤ c.toNat ∧ c.toNat ≤ 70 then some (c.toNat - 55)
  else none

/-- Parse the body of a JSON string after the opening quote, decoding the
standard escapes, up to and including the closing quote. -/
def pStringBody : List Char → Option (List Char × List Char)
  | [] => none
  | '"' :: rest => some ([], rest)
  | '\\' :: 'u' :: h1 :: h2 :: h3 :: h4 :: rest =>
    match hexVal h1, hexVal h2, hexVal h3, hexVal h4 with
    | some a, some b, some c, some d =>
      (pStringBody rest).map
        (fun p => (Char.ofNat (4096 * a + 256 * b + 16 * c + d) :: p.1, p.2))
    | _, _, _, _ => none
  | '\\' :: e :: rest =>
    if e = '"' then (pStringBody rest).map (fun p => ('"' :: p.1, p.2))
    else if e = '\\' then (pStringBody rest).map (fun p => ('\\' :: p.1, p.2))
    else if e = '/' then (pStringBody rest).map (fun p => ('/' :: p.1, p.2))
    else if e = 'n' then (pStringBody rest).map (fun p => ('\n' :: p.1, p.2))
    else if e = 't' then (pStringBody rest).map (fun p => ('\t' :: p.1, p.2))
    else if e = 'r' then (pStringBody rest).map (fun p => ('\r' :: p.1, p.2))
    else if e = 'b' then (pStringBody rest).map (fun p => ('\x08' :: p.1, p.2))
    else if e = 'f' then (pStringBody rest).map (fun p => ('\x0c' :: p.1, p.2))
    else none
  | c :: rest =>
    if c.toNat < 32 then none
    else (pStringBody rest).map (fun p => (c :: p.1, p.2))

mutual
/-- Fuel-driven recursive-descent parse of one JSON value. -/
def pVal : Nat → List Char → Option (Json × List Char)
  | 0, _ => none
  | fuel + 1, cs =>
    match skipWs cs with
    | 'n' :: 'u' :: 'l' :: 'l' :: rest => some (Json.null, rest)
    | 't' :: 'r' :: 'u' :: 'e' :: rest => some (Json.bool true, rest)
    | 'f' :: 'a' :: 'l' :: 's' :: 'e' :: rest => some (Json.bool false, rest)
    | '"' :: rest => (pStringBody rest).map (fun p => (Json.str (String.mk p.1), p.2))
    | '[' :: rest => (pItems fuel rest).map (fun p => (Json.arr p.1, p.2))
    | '{' :: rest => (pMembers fuel rest).map (fun p => (Json.obj p.1, p.2))
    | cs2 => (pInt cs2).map (fun p => (Json.num p.1, p.2))

/-- Parse the items of an array after the opening bracket. -/
def pItems : Nat → List Char → Option (List Json × List Char)
  | 0, _ => none
  | fuel + 1, cs =>
    match skipWs cs with
    | ']' :: rest => some ([], rest)
    | cs2 =>
      match pVal fuel cs2 with
      | none => none
      | some (v, rest) =>
        match pItemsRest fuel rest with
        | none => none
        | some (vs, rest2) => some (v :: vs, rest2)

/-- Parse the items of an array after a complete item. -/
def pItemsRest : Nat → List Char → Option (List Json × List Char)
  | 0, _ => none
  | fuel + 1, cs =>
    match skipWs cs with
    | ']' :: rest => some ([], rest)
    | ',' :: rest =>
      match pVal fuel rest with
      | none => none
      | some (v, rest2) =>
        match pItemsRest fuel rest2 with
        | none => none
        | some (vs, rest3) => some (v :: vs, rest3)
    | _ => none

/-- Parse the members of an object after the opening brace. -/
def pMembers : Nat → List Char → Option (List (String × Json) × List Char)
  | 0, _ => none
  | fuel + 1, cs =>
    match skipWs cs with
    | '}' :: rest => some ([], rest)
    | cs2 =>
      match pMember fuel cs2 with
      | none => none
      | some (kv, rest) =>
        match pMembersRest fuel rest with
        | none => none
        | some (kvs, rest2) => some (kv :: kvs, rest2)

/-- Parse the members of an object after a complete member. -/
def pMembersRest : Nat → List Char → Option (List (String × Json) × List Char)
  | 0, _ => none
  | fuel + 1, cs =>
    match skipWs cs with
    | '}' :: rest => some ([], rest)
    | ',' :: rest =>
      match pMember fuel rest with
      | none => none
      | some (kv, rest2) =>
        match pMembersRest fuel rest2 with
        | none => none
        | some (kvs, rest3) => some (kv :: kvs, rest3)
    | _ => none

/-- Parse one member: quoted key, colon, value. -/
def pMember : Nat → List Char → Option ((String × Json) × List Char)
  | 0, _ => none
  | fuel + 1, cs =>
    match skipWs cs with
    | '"' :: rest =>
      match pStringBody rest with
      | none => none
      | some (k, rest2) =>
        match skipWs rest2 with
        | ':' :: rest3 =>
          match pVal fuel rest3 with
          | none => none
          | some (v, rest4) => some ((String.mk k, v), rest4)
        | _ => none
    | _ => none
end

/-- JSON-decode a whole string: parse one value and require only
whitespace afterwards. -/
def parseJson (s : String) : Option Json :=
  match pVal (s.data.length + 1) s.data with
  | some (v, rest) => if (skipWs rest).isEmpty then some v else none
  | none => none

/-- A continuation at which a serialized number may legally stop: the end
of the line, or a separator or closing bracket of the grammar. -/
def stopOk : List Char → Prop
  | [] => True
  | c :: _ => c = ',' ∨ c = ']' ∨ c = '}'

theorem natCharsGo_fuel : ∀ (f1 f2 n : Nat), n < f1 → n < f2 →
    natCharsGo f1 n = natCharsGo f2 n := by
  intro f1
  induction f1 with
  | zero => intro f2 n h1; omega
  | succ f1 ih =>
    intro f2 n h1 h2
    match f2 with
    | 0 => omega
    | g2 + 1 =>
      simp only [natCharsGo]
      by_cases hn : n < 10
      · rw [if_pos hn, if_pos hn]
      · rw [if_neg hn, if_neg hn]
        have hd : n / 10 < n := Nat.div_lt_self (by omega) (by omega)
        rw [ih g2 (n / 10) (by omega) (by omega)]

theorem natChars_eq (n : Nat) :
    natChars n = if n < 10 then [Nat.digitChar n]
      else natChars (n / 10) ++ [Nat.digitChar (n % 10)] := by
  show natCharsGo (n + 1) n = _
  by_cases hn : n < 10
  · simp only [natCharsGo, if_pos hn]
  · simp only [natCharsGo, if_neg hn]
    have hd : n / 10 < n := Nat.div_lt_self (by omega) (by omega)
    rw [natCharsGo_fuel n (n / 10 + 1) (n / 10) (by omega) (by omega)]
    rfl

theorem isDigitChar_digitChar (d : Nat) (h : d < 10) :
    isDigitChar (Nat.digitChar d) = true := by
  interval_cases d <;> decide

theorem digitVal_digitChar (d : Nat) (h : d < 10) :
    digitVal (Nat.digitChar d) = d := by
  interval_cases d <;> decide

theorem natChars_all_digits (n : Nat) :
    ∀ c ∈ natChars n, isDigitChar c = true := by
  induction n using Nat.strong_induction_on with
  | _ n ih =>
    rw [natChars_eq]
    by_cases hn : n < 10
    · rw [if_pos hn]
      intro c hc
      rcases List.mem_singleton.mp hc with rfl
      exact isDigitChar_digitChar n hn
    · rw [if_neg hn]
      intro c hc
      rcases List.mem_append.mp hc with h1 | h2
      · exact ih (n / 10) (Nat.div_lt_self (by omega) (by omega)) c h1
      · rcases List.mem_singleton.mp h2 with rfl
        exact isDigitChar_digitChar _ (Nat.mod_lt _ (by omega))

theorem natChars_ne_nil (n : Nat) : natChars n ≠ [] := by
  rw [natChars_eq]
  by_cases hn : n < 10
  · rw [if_pos hn]; simp
  · rw [if_neg hn]; simp

theorem digitsVal_append_single (ds : List Char) (c : Char) :
    digitsVal (ds ++ [c]) = 10 * digitsVal ds + digitVal c := by
  unfold digitsVal
  rw [List.foldl_append]
  rfl

theorem digitsVal_natChars (n : Nat) : digitsVal (natChars n) = n := by
  induction n using Nat.strong_induction_on with
  | _ n ih =>
    rw [natChars_eq]
    by_cases hn : n < 10
    · rw [if_pos hn]
      show 10 * 0 + digitVal (Nat.digitChar n) = n
      rw [digitVal_digitChar n hn]
      omega
    · rw [if_neg hn, digitsVal_append_single,
        ih (n / 10) (Nat.div_lt_self (by omega) (by omega)),
        digitVal_digitChar _ (Nat.mod_lt _ (by omega))]
      omega

theorem takeWhile_stop (p : Char → Bool) (r : List Char)
    (h : ∀ c, r.head? = some c → p c = false) :
    r.takeWhile p = [] ∧ r.dropWhile p = r := by
  match r with
  | [] => exact ⟨rfl, rfl⟩
  | c :: t =>
    have hc : p c = false := h c rfl
    constructor
    · exact List.takeWhile_cons_of_neg (by simp [hc])
    · exact List.dropWhile_cons_of_neg (by simp [hc])

theorem stopOk_not_digit (r : List Char) (h : stopOk r) :
    ∀ c, r.head? = some c → isDigitChar c = false := by
  match r with
  | [] => intro c hc; simp at hc
  | c0 :: t =>
    intro c hc
    have he : c0 = c := by simpa using hc
    subst he
    rcases h with rfl | rfl | rfl <;> decide

theorem pNat_natChars (m : Nat) (r : List Char) (hr : stopOk r) :
    pNat (natChars m ++ r) = some (m, r) := by
  have hall : ∀ c ∈ natChars m, isDigitChar c = true := natChars_all_digits m
  have hstop := takeWhile_stop isDigitChar r (stopOk_not_digit r hr)
  have htake : (natChars m ++ r).takeWhile isDigitChar = natChars m := by
    rw [List.takeWhile_append_of_pos hall, hstop.1, List.append_nil]
  have hdrop : (natChars m ++ r).dropWhile isDigitChar = r := by
    rw [List.dropWhile_append]
    have hempty : ((natChars m).dropWhile isDigitChar).isEmpty = true := by
      rw [List.dropWhile_eq_nil_iff.mpr hall]
      rfl
    rw [if_pos hempty, hstop.2]
  unfold pNat
  rw [htake, hdrop]
  match hm : natChars m with
  | [] => exact absurd hm (natChars_ne_nil m)
  | c :: t =>
    show some (digitsVal (c :: t), r) = some (m, r)
    rw [← hm, digitsVal_natChars]

theorem pInt_minus (cs : List Char) :
    pInt ('-' :: cs) = (pNat cs).map (fun p => (-(p.1 : Int), p.2)) := rfl

theorem pInt_not_minus (c : Char) (t : List Char) (h : c ≠ '-') :
    pInt (c :: t) = (pNat (c :: t)).map (fun p => ((p.1 : Int), p.2)) := by
  unfold pInt
  split
  · rename_i heq
    rw [List.cons.injEq] at heq
    exact absurd heq.1 h
  · rfl

theorem isDigitChar_not_minus (c : Char) (h : isDigitChar c = true) :
    c ≠ '-' := by
  intro he
  subst he
  simp [isDigitChar] at h

theorem pInt_intChars (n : Int) (r : List Char) (hr : stopOk r) :
    pInt (intChars n ++ r) = some (n, r) := by
  match n with
  | Int.ofNat m =>
    show pInt (natChars m ++ r) = _
    match hm : natChars m with
    | [] => exact absurd hm (natChars_ne_nil m)
    | c :: t =>
      have hdig : isDigitChar c = true := by
        have := natChars_all_digits m
        rw [hm] at this
        exact this c (List.mem_cons_self _ _)
      rw [List.cons_append, pInt_not_minus c (t ++ r) (isDigitChar_not_minus c hdig),
        ← List.cons_append, ← hm, pNat_natChars m r hr]
      rfl
  | Int.negSucc m =>
    show pInt ('-' :: (natChars (m + 1) ++ r)) = _
    rw [pInt_minus, pNat_natChars (m + 1) r hr]
    rfl

theorem hexVal_digitChar_lt16 :
    ∀ d : Fin 16, hexVal (Nat.digitChar d.val) = some d.val := by decide

theorem pStringBody_unicode (a b : Nat) (ha : a < 16) (hb : b < 16)
    (rest : List Char) :
    pStringBody ('\\' :: 'u' :: '0' :: '0' :: Nat.digitChar a :: Nat.digitChar b :: rest)
      = (pStringBody rest).map
          (fun p => (Char.ofNat (4096 * 0 + 256 * 0 + 16 * a + b) :: p.1, p.2)) := by
  have hda := hexVal_digitChar_lt16 ⟨a, ha⟩
  have hdb := hexVal_digitChar_lt16 ⟨b, hb⟩
  simp only [pStringBody, hda, hdb, show hexVal '0' = some 0 from rfl]

theorem escString_cons (c : Char) (cs : List Char) :
    escString (c :: cs) = escChar c ++ escString cs := by
  simp [escString]

theorem pStringBody_ord (c : Char) (t : List Char) (h1 : c ≠ '"')
    (h2 : c ≠ '\\') :
    pStringBody (c :: t)
      = if c.toNat < 32 then none
        else (pStringBody t).map (fun p => (c :: p.1, p.2)) := by
  conv_lhs => unfold pStringBody
  split
  all_goals rename_i heq
  all_goals
    first
    | exact List.noConfusion heq
    | (rw [List.cons.injEq] at heq; exact absurd heq.1 h1)
    | (rw [List.cons.injEq] at heq; exact absurd heq.1 h2)
    | (rw [List.cons.injEq] at heq
       obtain ⟨hc, ht⟩ := heq
       subst hc
       subst ht
       rfl)

theorem pStringBody_esc (s : List Char) :
    ∀ r, pStringBody (escString s ++ '"' :: r) = some (s, r) := by
  induction s with
  | nil => intro r; rfl
  | cons c cs ih =>
    intro r
    rw [escString_cons, List.append_assoc]
    by_cases h1 : c = '"'
    · subst h1
      rw [show escChar '"' = ['\\', '"'] from rfl]
      show (pStringBody (escString cs ++ '"' :: r)).map
        (fun p => ('"' :: p.1, p.2)) = _
      rw [ih r]
      rfl
    · by_cases h2 : c = '\\'
      · subst h2
        rw [show escChar '\\' = ['\\', '\\'] from rfl]
        show (pStringBody (escString cs ++ '"' :: r)).map
          (fun p => ('\\' :: p.1, p.2)) = _
        rw [ih r]
        rfl
      · by_cases h3 : c = '\n'
        · subst h3
          rw [show escChar '\n' = ['\\', 'n'] from rfl]
          show (pStringBody (escString cs ++ '"' :: r)).map
            (fun p => ('\n' :: p.1, p.2)) = _
          rw [ih r]
          rfl
        · by_cases h4 : c = '\t'
          · subst h4
            rw [show escChar '\t' = ['\\', 't'] from rfl]
            show (pStringBody (escString cs ++ '"' :: r)).map
              (fun p => ('\t' :: p.1, p.2)) = _
            rw [ih r]
            rfl
          · by_cases h5 : c = '\r'
            · subst h5
              rw [show escChar '\r' = ['\\', 'r'] from rfl]
              show (pStringBody (escString cs ++ '"' :: r)).map
                (fun p => ('\r' :: p.1, p.2)) = _
              rw [ih r]
              rfl
            · by_cases h6 : c = '\x08'
              · subst h6
                rw [show escChar '\x08' = ['\\', 'b'] from rfl]
                show (pStringBody (escString cs ++ '"' :: r)).map
                  (fun p => ('\x08' :: p.1, p.2)) = _
                rw [ih r]
                rfl
              · by_cases h7 : c = '\x0c'
                · subst h7
                  rw [show escChar '\x0c' = ['\\', 'f'] from rfl]
                  show (pStringBody (escString cs ++ '"' :: r)).map
                    (fun p => ('\x0c' :: p.1, p.2)) = _
                  rw [ih r]
                  rfl
                · by_cases h8 : c.toNat < 32
                  · rw [show escChar c
                      = ['\\', 'u', '0', '0', Nat.digitChar (c.toNat / 16),
                         Nat.digitChar (c.toNat % 16)] from by
                      unfold escChar
                      rw [if_neg h1, if_neg h2, if_neg h3, if_neg h4, if_neg h5,
                        if_neg h6, if_neg h7, if_pos h8]]
                    rw [show (['\\', 'u', '0', '0', Nat.digitChar (c.toNat / 16),
                        Nat.digitChar (c.toNat % 16)] : List Char)
                        ++ (escString cs ++ '"' :: r)
                      = '\\' :: 'u' :: '0' :: '0' :: Nat.digitChar (c.toNat / 16)
                        :: Nat.digitChar (c.toNat % 16) :: (escString cs ++ '"' :: r)
                      from rfl]
                    rw [pStringBody_unicode (c.toNat / 16) (c.toNat % 16)
                      (by omega) (Nat.mod_lt _ (by omega)) _]
                    rw [ih r]
                    have hc : Char.ofNat (4096 * 0 + 256 * 0
                        + 16 * (c.toNat / 16) + c.toNat % 16) = c := by
                      have harith : 4096 * 0 + 256 * 0 + 16 * (c.toNat / 16)
                          + c.toNat % 16 = c.toNat := by omega
                      rw [harith, Char.ofNat_toNat]
                    rw [hc]
                    rfl
                  · rw [show escChar c = [c] from by
                      unfold escChar
                      rw [if_neg h1, if_neg h2, if_neg h3, if_neg h4, if_neg h5,
                        if_neg h6, if_neg h7, if_neg h8]]
                    rw [List.singleton_append]
                    rw [pStringBody_ord c _ h1 h2, if_neg h8, ih r]
                    rfl

/-- Induction over Json values with hypotheses on list members. -/
theorem Json.inductionOn (P : Json → Prop)
    (hnull : P Json.null) (hbool : ∀ b, P (Json.bool b))
    (hnum : ∀ n, P (Json.num n)) (hstr : ∀ s, P (Json.str s))
    (harr : ∀ xs, (∀ x ∈ xs, P x) → P (Json.arr xs))
    (hobj : ∀ fs, (∀ kv ∈ fs, P kv.2) → P (Json.obj fs)) : ∀ j, P j := by
  intro j
  match j with
  | Json.null => exact hnull
  | Json.bool b => exact hbool b
  | Json.num n => exact hnum n
  | Json.str s => exact hstr s
  | Json.arr xs =>
    exact harr xs (fun x hx =>
      Json.inductionOn P hnull hbool hnum hstr harr hobj x)
  | Json.obj fs =>
    exact hobj fs (fun kv hkv =>
      Json.inductionOn P hnull hbool hnum hstr harr hobj kv.2)
termination_by j => sizeOf j
decreasing_by
  · have := List.sizeOf_lt_of_mem hx
    simp only [Json.arr.sizeOf_spec]
    omega
  · have h1 := List.sizeOf_lt_of_mem hkv
    have h2 : sizeOf kv.2 < sizeOf kv := by
      cases kv with
      | mk k v => simp
    simp only [Json.obj.sizeOf_spec]
    omega

mutual
/-- Parser fuel requirement of one value. -/
def sizeB : Json → Nat
  | .null => 1
  | .bool _ => 1
  | .num _ => 1
  | .str _ => 1
  | .arr xs => 1 + sizeElems xs
  | .obj fs => 1 + sizeMembers fs

/-- Parser fuel requirement of an item list. -/
def sizeElems : List Json → Nat
  | [] => 1
  | x :: xs => 1 + max (sizeB x) (sizeElems xs)

/-- Parser fuel requirement of a member list. -/
def sizeMembers : List (String × Json) → Nat
  | [] => 1
  | kv :: fs => 1 + max (sizeB kv.2 + 1) (sizeMembers fs)
end

theorem sizeB_pos (j : Json) : 1 ≤ sizeB j := by
  match j with
  | .null | .bool _ | .num _ | .str _ => exact Nat.le_refl 1
  | .arr xs => simp [sizeB]
  | .obj fs => simp [sizeB]

theorem sizeElems_pos (xs : List Json) : 1 ≤ sizeElems xs := by
  match xs with
  | [] => exact Nat.le_refl 1
  | x :: xs =>
    show 1 ≤ 1 + max (sizeB x) (sizeElems xs)
    omega

theorem sizeMembers_pos (fs : List (String × Json)) : 1 ≤ sizeMembers fs := by
  match fs with
  | [] => exact Nat.le_refl 1
  | kv :: fs =>
    show 1 ≤ 1 + max (sizeB kv.2 + 1) (sizeMembers fs)
    omega

theorem skipWs_not_ws (c : Char) (l : List Char) (h : isWsChar c = false) :
    skipWs (c :: l) = c :: l := by
  simp [skipWs, List.dropWhile_cons, h]

theorem pVal_space (fuel : Nat) (l : List Char) :
    pVal fuel (' ' :: l) = pVal fuel l := by
  cases fuel <;> rfl

theorem isDigitChar_head_facts (c : Char) (h : isDigitChar c = true) :
    isWsChar c = false ∧ c ≠ ']' ∧ c ≠ 'n' ∧ c ≠ 't' ∧ c ≠ 'f'
      ∧ c ≠ '"' ∧ c ≠ '[' ∧ c ≠ '{' := by
  have hb : 48 ≤ c.toNat ∧ c.toNat ≤ 57 := by
    simpa [isDigitChar] using h
  refine ⟨?_, ?_, ?_, ?_, ?_, ?_, ?_, ?_⟩
  · simp only [isWsChar]
    simp only [Bool.or_eq_false_iff, decide_eq_false_iff_not]
    omega
  all_goals intro he
  all_goals rw [he] at h
  all_goals simp [isDigitChar] at h

/-- The first character of a serialized value: it exists, is not JSON
whitespace, and is not a closing bracket. -/
theorem dumpChars_head (j : Json) :
    ∃ c t, dumpChars j = c :: t ∧ isWsChar c = false ∧ c ≠ ']' := by
  match j with
  | .null => exact ⟨'n', _, rfl, by decide, by decide⟩
  | .bool true => exact ⟨'t', _, rfl, by decide, by decide⟩
  | .bool false => exact ⟨'f', _, rfl, by decide, by decide⟩
  | .str s => exact ⟨'"', _, rfl, by decide, by decide⟩
  | .arr xs => exact ⟨'[', _, rfl, by decide, by decide⟩
  | .obj fs => exact ⟨'{', _, rfl, by decide, by decide⟩
  | .num (Int.ofNat m) =>
    match hm : natChars m with
    | [] => exact absurd hm (natChars_ne_nil m)
    | c :: t =>
      have hdig : isDigitChar c = true := by
        have := natChars_all_digits m
        rw [hm] at this
        exact this c (List.mem_cons_self _ _)
      obtain ⟨hws, hrb, _⟩ := isDigitChar_head_facts c hdig
      exact ⟨c, t, hm, hws, hrb⟩
  | .num (Int.negSucc m) => exact ⟨'-', _, rfl, by decide, by decide⟩

/-- Parser correctness statement of one value: at sufficient fuel, the
parser consumes exactly the serialization and returns the value, leaving
any legal continuation intact. -/
def PV (j : Json) : Prop :=
  ∀ (fuel : Nat) (r : List Char), sizeB j ≤ fuel → stopOk r →
    pVal fuel (dumpChars j ++ r) = some (j, r)

theorem stringMk_data (s : String) : String.mk s.data = s := rfl

theorem stopOk_dumpElemsRest (ys : List Json) (r : List Char) :
    stopOk (dumpElemsRest ys ++ ']' :: r) := by
  match ys with
  | [] => exact Or.inr (Or.inl rfl)
  | y :: zs => exact Or.inl rfl

theorem stopOk_dumpFieldsRest (fs : List (String × Json)) (r : List Char) :
    stopOk (dumpFieldsRest fs ++ '}' :: r) := by
  match fs with
  | [] => exact Or.inr (Or.inr rfl)
  | kv :: gs => exact Or.inl rfl

theorem pVal_int (fuel : Nat) (n : Int) (r : List Char) (hr : stopOk r) :
    pVal (fuel + 1) (intChars n ++ r) = some (Json.num n, r) := by
  match n with
  | Int.ofNat m =>
    show pVal (fuel + 1) (natChars m ++ r) = some (Json.num (Int.ofNat m), r)
    match hm : natChars m with
    | [] => exact absurd hm (natChars_ne_nil m)
    | c :: t =>
      have hdig : isDigitChar c = true := by
        have := natChars_all_digits m
        rw [hm] at this
        exact this c (List.mem_cons_self _ _)
      obtain ⟨hws, _, hn, ht, hf, hq, hlb, hlc⟩ := isDigitChar_head_facts c hdig
      have h2 : pInt (c :: (t ++ r)) = some ((m : Int), r) := by
        rw [← List.cons_append, ← hm]
        exact pInt_intChars (Int.ofNat m) r hr
      rw [List.cons_append]
      simp only [pVal, skipWs_not_ws c _ hws]
      split
      · rename_i heq
        rw [List.cons.injEq] at heq
        exact absurd heq.1 hn
      · rename_i heq
        rw [List.cons.injEq] at heq
        exact absurd heq.1 ht
      · rename_i heq
        rw [List.cons.injEq] at heq
        exact absurd heq.1 hf
      · rename_i heq
        rw [List.cons.injEq] at heq
        exact absurd heq.1 hq
      · rename_i heq
        rw [List.cons.injEq] at heq
        exact absurd heq.1 hlb
      · rename_i heq
        rw [List.cons.injEq] at heq
        exact absurd heq.1 hlc
      · rw [h2]
        rfl
  | Int.negSucc m =>
    show pVal (fuel + 1) ('-' :: (natChars (m + 1) ++ r))
      = some (Json.num (Int.negSucc m), r)
    have h2 : pInt ('-' :: (natChars (m + 1) ++ r)) = some (Int.negSucc m, r) :=
      pInt_intChars (Int.negSucc m) r hr
    show (pInt ('-' :: (natChars (m + 1) ++ r))).map
      (fun p => (Json.num p.1, p.2)) = _
    rw [h2]
    rfl

theorem pItemsRest_dump (ys : List Json) (hys : ∀ x ∈ ys, PV x) :
    ∀ (fuel : Nat) (r : List Char), sizeElems ys ≤ fuel →
      pItemsRest fuel (dumpElemsRest ys ++ ']' :: r) = some (ys, r) := by
  induction ys with
  | nil =>
    intro fuel r hf
    match fuel with
    | 0 =>
      have := sizeElems_pos ([] : List Json)
      omega
    | f + 1 => rfl
  | cons y ys ih =>
    intro fuel r hf
    have hsz : sizeElems (y :: ys) = 1 + max (sizeB y) (sizeElems ys) := rfl
    match fuel with
    | 0 => omega
    | f + 1 =>
      have hshape : dumpElemsRest (y :: ys) ++ ']' :: r
          = ',' :: ' ' :: (dumpChars y ++ (dumpElemsRest ys ++ ']' :: r)) := by
        show (',' :: ' ' :: (dumpChars y ++ dumpElemsRest ys)) ++ ']' :: r = _
        simp [List.append_assoc]
      rw [hshape]
      have hy := hys y (List.mem_cons_self _ _)
      have hmx : max (sizeB y) (sizeElems ys) ≤ f := by omega
      have hpv := hy f (dumpElemsRest ys ++ ']' :: r)
        (le_trans (Nat.le_max_left _ _) hmx) (stopOk_dumpElemsRest ys r)
      have hrest := ih (fun x hx => hys x (List.mem_cons_of_mem _ hx)) f r
        (le_trans (Nat.le_max_right _ _) hmx)
      simp only [pItemsRest, skipWs_not_ws ',' _ (by decide), pVal_space,
        hpv, hrest]

theorem pItems_dump (xs : List Json) (hxs : ∀ x ∈ xs, PV x) :
    ∀ (fuel : Nat) (r : List Char), sizeElems xs ≤ fuel →
      pItems fuel (dumpElems xs ++ ']' :: r) = some (xs, r) := by
  match xs with
  | [] =>
    intro fuel r hf
    match fuel with
    | 0 =>
      have := sizeElems_pos ([] : List Json)
      omega
    | f + 1 => rfl
  | x :: ys =>
    intro fuel r hf
    have hsz : sizeElems (x :: ys) = 1 + max (sizeB x) (sizeElems ys) := rfl
    match fuel with
    | 0 => omega
    | f + 1 =>
      have hshape : dumpElems (x :: ys) ++ ']' :: r
          = dumpChars x ++ (dumpElemsRest ys ++ ']' :: r) := by
        show (dumpChars x ++ dumpElemsRest ys) ++ ']' :: r = _
        simp [List.append_assoc]
      obtain ⟨c, t, hct, hcw, hcrb⟩ := dumpChars_head x
      have hmx : max (sizeB x) (sizeElems ys) ≤ f := by omega
      have hpv := hxs x (List.mem_cons_self _ _) f (dumpElemsRest ys ++ ']' :: r)
        (le_trans (Nat.le_max_left _ _) hmx) (stopOk_dumpElemsRest ys r)
      have hrest := pItemsRest_dump ys (fun z hz => hxs z (List.mem_cons_of_mem _ hz))
        f r (le_trans (Nat.le_max_right _ _) hmx)
      rw [hshape, hct, List.cons_append]
      simp only [pItems, skipWs_not_ws c _ hcw]
      split
      · rename_i heq
        rw [List.cons.injEq] at heq
        exact absurd heq.1 hcrb
      · rw [← List.cons_append, ← hct]
        simp only [hpv, hrest]

theorem pMember_dump (k : String) (v : Json) (hv : PV v) :
    ∀ (fuel : Nat) (r : List Char), sizeB v < fuel → stopOk r →
      pMember fuel (fieldChars (k, v) ++ r) = some ((k, v), r) := by
  intro fuel r hf hr
  match fuel with
  | 0 => omega
  | f + 1 =>
    have hshape : fieldChars (k, v) ++ r
        = '"' :: (escString k.data ++ '"' :: ':' :: ' ' :: (dumpChars v ++ r)) := by
      show ('"' :: (escString k.data ++ '"' :: ':' :: ' ' :: dumpChars v)) ++ r = _
      simp [List.append_assoc]
    rw [hshape]
    have hps := pStringBody_esc k.data (':' :: ' ' :: (dumpChars v ++ r))
    have hpv := hv f r (by omega) hr
    simp only [pMember, skipWs_not_ws '"' _ (by decide), hps,
      skipWs_not_ws ':' _ (by decide), pVal_space, hpv, stringMk_data]

theorem pMember_space (fuel : Nat) (l : List Char) :
    pMember fuel (' ' :: l) = pMember fuel l := by
  cases fuel <;> rfl

theorem pMembersRest_dump (fs : List (String × Json))
    (hfs : ∀ kv ∈ fs, PV kv.2) :
    ∀ (fuel : Nat) (r : List Char), sizeMembers fs ≤ fuel →
      pMembersRest fuel (dumpFieldsRest fs ++ '}' :: r) = some (fs, r) := by
  induction fs with
  | nil =>
    intro fuel r hf
    match fuel with
    | 0 =>
      have := sizeMembers_pos ([] : List (String × Json))
      omega
    | f + 1 => rfl
  | cons kv fs ih =>
    intro fuel r hf
    have hsz : sizeMembers (kv :: fs) = 1 + max (sizeB kv.2 + 1) (sizeMembers fs) := rfl
    match fuel with
    | 0 => omega
    | f + 1 =>
      match kv with
      | (k, v) =>
        have hshape : dumpFieldsRest ((k, v) :: fs) ++ '}' :: r
            = ',' :: ' ' :: (fieldChars (k, v) ++ (dumpFieldsRest fs ++ '}' :: r)) := by
          show (',' :: ' ' :: (fieldChars (k, v) ++ dumpFieldsRest fs)) ++ '}' :: r = _
          simp [List.append_assoc]
        rw [hshape]
        have hmx : max (sizeB v + 1) (sizeMembers fs) ≤ f := by
          simp only [hsz] at hf
          omega
        have hm := pMember_dump k v (hfs (k, v) (List.mem_cons_self _ _)) f
          (dumpFieldsRest fs ++ '}' :: r)
          (by have := le_trans (Nat.le_max_left (sizeB v + 1) (sizeMembers fs)) hmx; omega)
          (stopOk_dumpFieldsRest fs r)
        have hrest := ih (fun z hz => hfs z (List.mem_cons_of_mem _ hz)) f r
          (le_trans (Nat.le_max_right _ _) hmx)
        -- the member parser is reached after the comma and one space
        have hmm : pMember f (' ' :: (fieldChars (k, v) ++ (dumpFieldsRest fs ++ '}' :: r)))
            = some ((k, v), dumpFieldsRest fs ++ '}' :: r) := by
          rw [pMember_space, hm]
        simp only [pMembersRest, skipWs_not_ws ',' _ (by decide), hmm, hrest]

theorem pMembers_dump (fs : List (String × Json))
    (hfs : ∀ kv ∈ fs, PV kv.2) :
    ∀ (fuel : Nat) (r : List Char), sizeMembers fs ≤ fuel →
      pMembers fuel (dumpFields fs ++ '}' :: r) = some (fs, r) := by
  match fs with
  | [] =>
    intro fuel r hf
    match fuel with
    | 0 =>
      have := sizeMembers_pos ([] : List (String × Json))
      omega
    | f + 1 => rfl
  | kv :: gs =>
    intro fuel r hf
    have hsz : sizeMembers (kv :: gs) = 1 + max (sizeB kv.2 + 1) (sizeMembers gs) := rfl
    match fuel with
    | 0 => omega
    | f + 1 =>
      match kv with
      | (k, v) =>
        have hshape : dumpFields ((k, v) :: gs) ++ '}' :: r
            = fieldChars (k, v) ++ (dumpFieldsRest gs ++ '}' :: r) := by
          show (fieldChars (k, v) ++ dumpFieldsRest gs) ++ '}' :: r = _
          simp [List.append_assoc]
        rw [hshape]
        have hmx : max (sizeB v + 1) (sizeMembers gs) ≤ f := by
          simp only [hsz] at hf
          omega
        have hm := pMember_dump k v (hfs (k, v) (List.mem_cons_self _ _)) f
          (dumpFieldsRest gs ++ '}' :: r)
          (by have := le_trans (Nat.le_max_left (sizeB v + 1) (sizeMembers gs)) hmx; omega)
          (stopOk_dumpFieldsRest gs r)
        have hrest := pMembersRest_dump gs (fun z hz => hfs z (List.mem_cons_of_mem _ hz))
          f r (le_trans (Nat.le_max_right _ _) hmx)
        have hfield : fieldChars (k, v) ++ (dumpFieldsRest gs ++ '}' :: r)
            = '"' :: (escString k.data ++ '"' :: ':' :: ' '
              :: (dumpChars v ++ (dumpFieldsRest gs ++ '}' :: r))) := by
          show ('"' :: (escString k.data ++ '"' :: ':' :: ' ' :: dumpChars v)) ++ _ = _
          simp [List.append_assoc]
        rw [hfield]
        show (match pMember f ('"' :: (escString k.data ++ '"' :: ':' :: ' '
            :: (dumpChars v ++ (dumpFieldsRest gs ++ '}' :: r)))) with
          | none => none
          | some (kv, rest) =>
            match pMembersRest f rest with
            | none => none
            | some (kvs, rest2) => some (kv :: kvs, rest2)) = some ((k, v) :: gs, r)
        rw [← hfield]
        simp only [hm, hrest]

/-- The parser inverts the serializer on every value: master lemma. -/
theorem pVal_dump : ∀ j : Json, PV j := by
  refine Json.inductionOn PV ?_ ?_ ?_ ?_ ?_ ?_
  · intro fuel r hf hr
    match fuel with
    | 0 => simp [sizeB] at hf
    | f + 1 => rfl
  · intro b fuel r hf hr
    match fuel with
    | 0 => simp [sizeB] at hf
    | f + 1 => cases b <;> rfl
  · intro n fuel r hf hr
    match fuel with
    | 0 => simp [sizeB] at hf
    | f + 1 => exact pVal_int f n r hr
  · intro s fuel r hf hr
    match fuel with
    | 0 => simp [sizeB] at hf
    | f + 1 =>
      have hshape : dumpChars (Json.str s) ++ r
          = '"' :: (escString s.data ++ '"' :: r) := by
        show ('"' :: (escString s.data ++ ['"'])) ++ r = _
        simp [List.append_assoc]
      rw [hshape]
      show (pStringBody (escString s.data ++ '"' :: r)).map
        (fun p => (Json.str (String.mk p.1), p.2)) = some (Json.str s, r)
      rw [pStringBody_esc s.data r]
      rfl
  · intro xs hIH fuel r hf hr
    have hsz : sizeB (Json.arr xs) = 1 + sizeElems xs := rfl
    match fuel with
    | 0 => rw [hsz] at hf; omega
    | f + 1 =>
      have hshape : dumpChars (Json.arr xs) ++ r
          = '[' :: (dumpElems xs ++ ']' :: r) := by
        show ('[' :: (dumpElems xs ++ [']'])) ++ r = _
        simp [List.append_assoc]
      rw [hshape]
      show (pItems f (dumpElems xs ++ ']' :: r)).map
        (fun p => (Json.arr p.1, p.2)) = some (Json.arr xs, r)
      rw [pItems_dump xs hIH f r (by rw [hsz] at hf; omega)]
      rfl
  · intro fs hIH fuel r hf hr
    have hsz : sizeB (Json.obj fs) = 1 + sizeMembers fs := rfl
    match fuel with
    | 0 => rw [hsz] at hf; omega
    | f + 1 =>
      have hshape : dumpChars (Json.obj fs) ++ r
          = '{' :: (dumpFields fs ++ '}' :: r) := by
        show ('{' :: (dumpFields fs ++ ['}'])) ++ r = _
        simp [List.append_assoc]
      rw [hshape]
      show (pMembers f (dumpFields fs ++ '}' :: r)).map
        (fun p => (Json.obj p.1, p.2)) = some (Json.obj fs, r)
      rw [pMembers_dump fs hIH f r (by rw [hsz] at hf; omega)]
      rfl

theorem natChars_len_pos (n : Nat) : 1 ≤ (natChars n).length := by
  match hm : natChars n with
  | [] => exact absurd hm (natChars_ne_nil n)
  | c :: t => simp

mutual
/-- The fuel requirement of a value never exceeds the length of its
serialization. -/
theorem sizeB_le_dumpLen : ∀ j : Json, sizeB j ≤ (dumpChars j).length
  | .null => by simp [dumpChars, sizeB]
  | .bool true => by simp [dumpChars, sizeB]
  | .bool false => by simp [dumpChars, sizeB]
  | .num n => by
    match n with
    | Int.ofNat m =>
      show sizeB (Json.num (Int.ofNat m)) ≤ (natChars m).length
      have := natChars_len_pos m
      show 1 ≤ (natChars m).length
      omega
    | Int.negSucc m =>
      show 1 ≤ ('-' :: natChars (m + 1)).length
      simp
  | .str s => by
    show 1 ≤ ('"' :: (escString s.data ++ ['"'])).length
    simp
  | .arr xs => by
    have h := sizeElems_le_dumpLen xs
    show 1 + sizeElems xs ≤ ('[' :: (dumpElems xs ++ [']'])).length
    simp only [List.length_cons, List.length_append, List.length_singleton]
    omega
  | .obj fs => by
    have h := sizeMembers_le_dumpLen fs
    show 1 + sizeMembers fs ≤ ('{' :: (dumpFields fs ++ ['}'])).length
    simp only [List.length_cons, List.length_append, List.length_singleton]
    omega

theorem sizeElems_le_dumpLen : ∀ xs : List Json,
    sizeElems xs ≤ (dumpElems xs).length + 1
  | [] => by simp [sizeElems, dumpElems]
  | x :: ys => by
    have h1 := sizeB_le_dumpLen x
    have h2 := sizeElemsRest_le_dumpLen ys
    obtain ⟨c, t, hct, hcw, hcb⟩ := dumpChars_head x
    have hlen : 1 ≤ (dumpChars x).length := by rw [hct]; simp
    show 1 + max (sizeB x) (sizeElems ys)
      ≤ (dumpChars x ++ dumpElemsRest ys).length + 1
    have hmx : max (sizeB x) (sizeElems ys)
        ≤ (dumpChars x).length + (dumpElemsRest ys).length :=
      max_le (by omega) (by omega)
    simp only [List.length_append]
    omega

theorem sizeElemsRest_le_dumpLen : ∀ ys : List Json,
    sizeElems ys ≤ (dumpElemsRest ys).length + 1
  | [] => by simp [sizeElems, dumpElemsRest]
  | y :: zs => by
    have h1 := sizeB_le_dumpLen y
    have h2 := sizeElemsRest_le_dumpLen zs
    show 1 + max (sizeB y) (sizeElems zs)
      ≤ (',' :: ' ' :: (dumpChars y ++ dumpElemsRest zs)).length + 1
    have hmx : max (sizeB y) (sizeElems zs)
        ≤ (dumpChars y).length + (dumpElemsRest zs).length + 1 :=
      max_le (by omega) (by omega)
    simp only [List.length_cons, List.length_append]
    omega

theorem sizeMembers_le_dumpLen : ∀ fs : List (String × Json),
    sizeMembers fs ≤ (dumpFields fs).length + 1
  | [] => by simp [sizeMembers, dumpFields]
  | kv :: gs => by
    have h2 := sizeMembersRest_le_dumpLen gs
    have h3 := fieldChars_len kv
    have hp := sizeB_pos kv.2
    show 1 + max (sizeB kv.2 + 1) (sizeMembers gs)
      ≤ (fieldChars kv ++ dumpFieldsRest gs).length + 1
    have hmx : max (sizeB kv.2 + 1) (sizeMembers gs)
        ≤ (fieldChars kv).length + (dumpFieldsRest gs).length :=
      max_le (by omega) (by omega)
    simp only [List.length_append]
    omega

theorem sizeMembersRest_le_dumpLen : ∀ gs : List (String × Json),
    sizeMembers gs ≤ (dumpFieldsRest gs).length + 1
  | [] => by simp [sizeMembers, dumpFieldsRest]
  | kv :: hs => by
    have h2 := sizeMembersRest_le_dumpLen hs
    have h3 := fieldChars_len kv
    show 1 + max (sizeB kv.2 + 1) (sizeMembers hs)
      ≤ (',' :: ' ' :: (fieldChars kv ++ dumpFieldsRest hs)).length + 1
    have hmx : max (sizeB kv.2 + 1) (sizeMembers hs)
        ≤ (fieldChars kv).length + (dumpFieldsRest hs).length + 1 :=
      max_le (by omega) (by omega)
    simp only [List.length_cons, List.length_append]
    omega

theorem fieldChars_len : ∀ kv : String × Json,
    sizeB kv.2 + 1 ≤ (fieldChars kv).length
  | (k, v) => by
    have h1 := sizeB_le_dumpLen v
    show sizeB v + 1
      ≤ ('"' :: (escString k.data ++ '"' :: ':' :: ' ' :: dumpChars v)).length
    simp only [List.length_cons, List.length_append]
    omega
end

/-- Round trip: JSON-decoding the compact serialization of a value
returns exactly that value. -/
theorem parseJson_dump (j : Json) : parseJson (Json.dump j) = some j := by
  have hsize : sizeB j ≤ (dumpChars j).length + 1 := by
    have := sizeB_le_dumpLen j
    omega
  have hmain := pVal_dump j ((dumpChars j).length + 1) [] hsize trivial
  rw [List.append_nil] at hmain
  unfold parseJson Json.dump
  show (match pVal ((dumpChars j).length + 1) (dumpChars j) with
    | some (v, rest) => if (skipWs rest).isEmpty then some v else none
    | none => none) = some j
  rw [hmain]
  rfl

/-- Nat.digitChar only ever produces a hexadecimal digit or the star
placeholder. -/
theorem digitChar_mem (n : Nat) : Nat.digitChar n ∈
    ("0123456789abcdef*" : String).data := by
  match n with
  | 0 => decide
  | 1 => decide
  | 2 => decide
  | 3 => decide
  | 4 => decide
  | 5 => decide
  | 6 => decide
  | 7 => decide
  | 8 => decide
  | 9 => decide
  | 10 => decide
  | 11 => decide
  | 12 => decide
  | 13 => decide
  | 14 => decide
  | 15 => decide
  | n + 16 =>
    unfold Nat.digitChar
    repeat rw [if_neg (by omega)]
    decide

/-- Nat.digitChar never produces a newline. -/
theorem digitChar_ne_nl (n : Nat) : Nat.digitChar n ≠ '\n' := by
  have h := digitChar_mem n
  intro he
  rw [he] at h
  exact absurd h (by decide)

/-- A decimal digit character is not a newline. -/
theorem digit_ne_nl (c : Char) (h : isDigitChar c = true) : c ≠ '\n' := by
  intro he
  subst he
  exact absurd h (by decide)

/-- The escape of any character contains no raw newline. -/
theorem escChar_no_nl (c d : Char) (hd : d ∈ escChar c) : d ≠ '\n' := by
  unfold escChar at hd
  by_cases h1 : c = '"'
  · rw [if_pos h1] at hd
    simp only [List.mem_cons, List.not_mem_nil, or_false] at hd
    rcases hd with rfl | rfl <;> decide
  rw [if_neg h1] at hd
  by_cases h2 : c = '\\'
  · rw [if_pos h2] at hd
    simp only [List.mem_cons, List.not_mem_nil, or_false] at hd
    rcases hd with rfl | rfl <;> decide
  rw [if_neg h2] at hd
  by_cases h3 : c = '\n'
  · rw [if_pos h3] at hd
    simp only [List.mem_cons, List.not_mem_nil, or_false] at hd
    rcases hd with rfl | rfl <;> decide
  rw [if_neg h3] at hd
  by_cases h4 : c = '\t'
  · rw [if_pos h4] at hd
    simp only [List.mem_cons, List.not_mem_nil, or_false] at hd
    rcases hd with rfl | rfl <;> decide
  rw [if_neg h4] at hd
  by_cases h5 : c = '\r'
  · rw [if_pos h5] at hd
    simp only [List.mem_cons, List.not_mem_nil, or_false] at hd
    rcases hd with rfl | rfl <;> decide
  rw [if_neg h5] at hd
  by_cases h6 : c = '\x08'
  · rw [if_pos h6] at hd
    simp only [List.mem_cons, List.not_mem_nil, or_false] at hd
    rcases hd with rfl | rfl <;> decide
  rw [if_neg h6] at hd
  by_cases h7 : c = '\x0c'
  · rw [if_pos h7] at hd
    simp only [List.mem_cons, List.not_mem_nil, or_false] at hd
    rcases hd with rfl | rfl <;> decide
  rw [if_neg h7] at hd
  by_cases h8 : c.toNat < 32
  · rw [if_pos h8] at hd
    simp only [List.mem_cons, List.not_mem_nil, or_false] at hd
    rcases hd with rfl | rfl | rfl | rfl | rfl | rfl
    · decide
    · decide
    · decide
    · decide
    · exact digitChar_ne_nl _
    · exact digitChar_ne_nl _
  · rw [if_neg h8] at hd
    simp only [List.mem_cons, List.not_mem_nil, or_false] at hd
    subst hd
    exact h3

/-- The escaped form of a string body contains no raw newline. -/
theorem escString_no_nl (t : List Char) (d : Char) (hd : d ∈ escString t) :
    d ≠ '\n' := by
  unfold escString at hd
  rw [List.mem_flatten] at hd
  obtain ⟨l, hl, hdl⟩ := hd
  rw [List.mem_map] at hl
  obtain ⟨c, _, rfl⟩ := hl
  exact escChar_no_nl c d hdl

/-- The decimal rendering of a Nat contains no newline. -/
theorem natChars_no_nl (n : Nat) (c : Char) (hc : c ∈ natChars n) : c ≠ '\n' :=
  digit_ne_nl c (natChars_all_digits n c hc)

/-- The decimal rendering of an Int contains no newline. -/
theorem intChars_no_nl (n : Int) (c : Char) (hc : c ∈ intChars n) : c ≠ '\n' := by
  cases n with
  | ofNat m => exact natChars_no_nl m c hc
  | negSucc m =>
    rw [show intChars (Int.negSucc m) = '-' :: natChars (m + 1) from rfl] at hc
    rcases List.mem_cons.mp hc with rfl | hc
    · decide
    · exact natChars_no_nl (m + 1) c hc

/-- Tail items of an array serialization contain no newline, given that the
per-item serializations do not. -/
theorem dumpElemsRest_no_nl (xs : List Json)
    (hIH : ∀ x ∈ xs, ∀ c ∈ dumpChars x, c ≠ '\n') :
    ∀ c ∈ dumpElemsRest xs, c ≠ '\n' := by
  induction xs with
  | nil =>
    intro c hc
    rw [show dumpElemsRest [] = [] from rfl] at hc
    exact absurd hc (List.not_mem_nil c)
  | cons y zs ih =>
    intro c hc
    rw [show dumpElemsRest (y :: zs)
      = ',' :: ' ' :: (dumpChars y ++ dumpElemsRest zs) from rfl] at hc
    rcases List.mem_cons.mp hc with rfl | hc
    · decide
    rcases List.mem_cons.mp hc with rfl | hc
    · decide
    rcases List.mem_append.mp hc with hc | hc
    · exact hIH y (List.mem_cons_self _ _) c hc
    · exact ih (fun x hx => hIH x (List.mem_cons_of_mem _ hx)) c hc

/-- The item list of an array serialization contains no newline, given that
the per-item serializations do not. -/
theorem dumpElems_no_nl (xs : List Json)
    (hIH : ∀ x ∈ xs, ∀ c ∈ dumpChars x, c ≠ '\n') :
    ∀ c ∈ dumpElems xs, c ≠ '\n' := by
  cases xs with
  | nil =>
    intro c hc
    rw [show dumpElems [] = [] from rfl] at hc
    exact absurd hc (List.not_mem_nil c)
  | cons y zs =>
    intro c hc
    rw [show dumpElems (y :: zs) = dumpChars y ++ dumpElemsRest zs from rfl] at hc
    rcases List.mem_append.mp hc with hc | hc
    · exact hIH y (List.mem_cons_self _ _) c hc
    · exact dumpElemsRest_no_nl zs
        (fun x hx => hIH x (List.mem_cons_of_mem _ hx)) c hc

/-- One serialized object member contains no newline, given that its value
serialization does not. -/
theorem fieldChars_no_nl (kv : String × Json)
    (hIH : ∀ c ∈ dumpChars kv.2, c ≠ '\n') :
    ∀ c ∈ fieldChars kv, c ≠ '\n' := by
  obtain ⟨k, v⟩ := kv
  intro c hc
  rw [show fieldChars (k, v)
    = '"' :: (escString k.data ++ '"' :: ':' :: ' ' :: dumpChars v) from rfl] at hc
  rcases List.mem_cons.mp hc with rfl | hc
  · decide
  rcases List.mem_append.mp hc with hc | hc
  · exact escString_no_nl k.data c hc
  rcases List.mem_cons.mp hc with rfl | hc
  · decide
  rcases List.mem_cons.mp hc with rfl | hc
  · decide
  rcases List.mem_cons.mp hc with rfl | hc
  · decide
  · exact hIH c hc

/-- Tail members of an object serialization contain no newline, given that
the per-value serializations do not. -/
theorem dumpFieldsRest_no_nl (fs : List (String × Json))
    (hIH : ∀ kv ∈ fs, ∀ c ∈ dumpChars kv.2, c ≠ '\n') :
    ∀ c ∈ dumpFieldsRest fs, c ≠ '\n' := by
  induction fs with
  | nil =>
    intro c hc
    rw [show dumpFieldsRest [] = [] from rfl] at hc
    exact absurd hc (List.not_mem_nil c)
  | cons kv gs ih =>
    intro c hc
    rw [show dumpFieldsRest (kv :: gs)
      = ',' :: ' ' :: (fieldChars kv ++ dumpFieldsRest gs) from rfl] at hc
    rcases List.mem_cons.mp hc with rfl | hc
    · decide
    rcases List.mem_cons.mp hc with rfl | hc
    · decide
    rcases List.mem_append.mp hc with hc | hc
    · exact fieldChars_no_nl kv (hIH kv (List.mem_cons_self _ _)) c hc
    · exact ih (fun z hz => hIH z (List.mem_cons_of_mem _ hz)) c hc

/-- The member list of an object serialization contains no newline, given
that the per-value serializations do not. -/
theorem dumpFields_no_nl (fs : List (String × Json))
    (hIH : ∀ kv ∈ fs, ∀ c ∈ dumpChars kv.2, c ≠ '\n') :
    ∀ c ∈ dumpFields fs, c ≠ '\n' := by
  cases fs with
  | nil =>
    intro c hc
    rw [show dumpFields [] = [] from rfl] at hc
    exact absurd hc (List.not_mem_nil c)
  | cons kv gs =>
    intro c hc
    rw [show dumpFields (kv :: gs) = fieldChars kv ++ dumpFieldsRest gs from rfl] at hc
    rcases List.mem_append.mp hc with hc | hc
    · exact fieldChars_no_nl kv (hIH kv (List.mem_cons_self _ _)) c hc
    · exact dumpFieldsRest_no_nl gs
        (fun z hz => hIH z (List.mem_cons_of_mem _ hz)) c hc

/-- The compact serialization of any JSON value contains no raw newline. -/
theorem dumpChars_no_nl : ∀ j : Json, ∀ c ∈ dumpChars j, c ≠ '\n' := by
  refine Json.inductionOn (fun j => ∀ c ∈ dumpChars j, c ≠ '\n') ?_ ?_ ?_ ?_ ?_ ?_
  · intro c hc he
    subst he
    exact absurd hc (by decide)
  · intro b c hc he
    subst he
    cases b <;> exact absurd hc (by decide)
  · intro n c hc
    exact intChars_no_nl n c hc
  · intro t c hc
    rw [show dumpChars (Json.str t) = '"' :: (escString t.data ++ ['"']) from rfl] at hc
    rcases List.mem_cons.mp hc with rfl | hc
    · decide
    rcases List.mem_append.mp hc with hc | hc
    · exact escString_no_nl t.data c hc
    · rw [List.mem_singleton] at hc
      subst hc
      decide
  · intro xs hIH c hc
    rw [show dumpChars (Json.arr xs) = '[' :: (dumpElems xs ++ [']']) from rfl] at hc
    rcases List.mem_cons.mp hc with rfl | hc
    · decide
    rcases List.mem_append.mp hc with hc | hc
    · exact dumpElems_no_nl xs hIH c hc
    · rw [List.mem_singleton] at hc
      subst hc
      decide
  · intro fs hIH c hc
    rw [show dumpChars (Json.obj fs) = '{' :: (dumpFields fs ++ ['}']) from rfl] at hc
    rcases List.mem_cons.mp hc with rfl | hc
    · decide
    rcases List.mem_append.mp hc with hc | hc
    · exact dumpFields_no_nl fs hIH c hc
    · rw [List.mem_singleton] at hc
      subst hc
      decide

/-- Unrolling the NDJSON fold from an arbitrary accumulator. -/
theorem ndjson_data_go : ∀ (records : List Json) (acc : List Char),
    (records.foldl (fun a r => a ++ Json.dump r ++ "\n") (String.mk acc)).data
      = acc ++ (records.map (fun r => dumpChars r ++ ['\n'])).flatten := by
  intro records
  induction records with
  | nil =>
    intro acc
    simp only [List.foldl_nil, List.map_nil, List.flatten_nil, List.append_nil]
  | cons r rs ih =>
    intro acc
    rw [List.foldl_cons]
    have hs : String.mk acc ++ Json.dump r ++ "\n"
        = String.mk (acc ++ (dumpChars r ++ ['\n'])) := by
      show String.mk ((acc ++ dumpChars r) ++ ['\n']) = _
      rw [List.append_assoc]
    rw [hs, ih]
    simp only [List.map_cons, List.flatten_cons, List.append_assoc]

/-- The NDJSON file content is exactly the concatenation of one compact,
newline-terminated serialization per record. -/
theorem ndjsonContent_data (records : List Json) :
    (ndjsonContent records).data
      = (records.map (fun r => dumpChars r ++ ['\n'])).flatten := by
  unfold ndjsonContent
  rw [show ("" : String) = String.mk [] from rfl]
  have h := ndjson_data_go records []
  rw [List.nil_append] at h
  exact h

/-- A newline-free prefix is cut off exactly at the following newline. -/
theorem takeDrop_line (l rest : List Char) (hl : ∀ c ∈ l, c ≠ '\n') :
    (l ++ '\n' :: rest).takeWhile (fun c => c ≠ '\n') = l
    ∧ (l ++ '\n' :: rest).dropWhile (fun c => c ≠ '\n') = '\n' :: rest := by
  induction l with
  | nil =>
    constructor
    · show ('\n' :: rest).takeWhile (fun c => c ≠ '\n') = []
      rw [List.takeWhile_cons_of_neg]
      simp
    · show ('\n' :: rest).dropWhile (fun c => c ≠ '\n') = '\n' :: rest
      rw [List.dropWhile_cons_of_neg]
      simp
  | cons a as ih =>
    have ha : a ≠ '\n' := hl a (List.mem_cons_self _ _)
    have ih2 := ih (fun c hc => hl c (List.mem_cons_of_mem _ hc))
    constructor
    · show ((a :: (as ++ '\n' :: rest)).takeWhile (fun c => c ≠ '\n')) = a :: as
      rw [List.takeWhile_cons_of_pos (by simp [ha])]
      rw [ih2.1]
    · show ((a :: (as ++ '\n' :: rest)).dropWhile (fun c => c ≠ '\n')) = '\n' :: rest
      rw [List.dropWhile_cons_of_pos (by simp [ha])]
      exact ih2.2

/-- Unfolding equation of the line splitter on a cons cell. -/
theorem splitNlGo_cons (f : Nat) (c : Char) (cs : List Char) :
    splitNlGo (f + 1) (c :: cs)
      = match (c :: cs).dropWhile (fun x => x ≠ '\n') with
        | [] => [(c :: cs).takeWhile (fun x => x ≠ '\n')]
        | _ :: rest => (c :: cs).takeWhile (fun x => x ≠ '\n') :: splitNlGo f rest := rfl

/-- The line splitter peels one newline-terminated, newline-free line. -/
theorem splitNlGo_line (f : Nat) (l rest : List Char)
    (hl : ∀ c ∈ l, c ≠ '\n') :
    splitNlGo (f + 1) (l ++ '\n' :: rest) = l :: splitNlGo f rest := by
  have htd := takeDrop_line l rest hl
  cases l with
  | nil =>
    show splitNlGo (f + 1) ('\n' :: rest) = [] :: splitNlGo f rest
    rw [splitNlGo_cons]
    simp only [List.nil_append] at htd
    rw [htd.2, htd.1]
  | cons a as =>
    show splitNlGo (f + 1) (a :: (as ++ '\n' :: rest)) = (a :: as) :: splitNlGo f rest
    rw [splitNlGo_cons]
    simp only [List.cons_append] at htd
    rw [htd.2, htd.1]

/-- Splitting the concatenation of newline-terminated, newline-free lines
recovers the lines, given enough fuel. -/
theorem splitNlGo_join : ∀ (lines : List (List Char)) (fuel : Nat),
    lines.length ≤ fuel → (∀ l ∈ lines, ∀ c ∈ l, c ≠ '\n') →
    splitNlGo fuel ((lines.map (fun m => m ++ ['\n'])).flatten) = lines := by
  intro lines
  induction lines with
  | nil =>
    intro fuel _ _
    cases fuel <;> rfl
  | cons l ls ih =>
    intro fuel hf hnl
    match fuel with
    | 0 => exact absurd hf (by simp)
    | f + 1 =>
      rw [List.map_cons, List.flatten_cons, List.append_assoc, List.singleton_append]
      rw [splitNlGo_line f l _ (hnl l (List.mem_cons_self _ _))]
      rw [ih f (by simp only [List.length_cons] at hf; omega)
        (fun m hm => hnl m (List.mem_cons_of_mem _ hm))]

/-- Each line contributes at least its terminating newline to the stream. -/
theorem lines_le_flatten : ∀ lines : List (List Char),
    lines.length ≤ ((lines.map (fun m => m ++ ['\n'])).flatten).length := by
  intro lines
  induction lines with
  | nil => simp
  | cons l ls ih =>
    simp only [List.map_cons, List.flatten_cons, List.length_cons,
      List.length_append, List.length_singleton]
    omega

/-- Splitting the concatenation of newline-terminated, newline-free lines
recovers the lines. -/
theorem splitNl_ndjson (lines : List (List Char))
    (h : ∀ l ∈ lines, ∀ c ∈ l, c ≠ '\n') :
    splitNl ((lines.map (fun m => m ++ ['\n'])).flatten) = lines := by
  unfold splitNl
  exact splitNlGo_join lines _ (lines_le_flatten lines) h

/-- C8: for every list of JSON object records, the line-delimited sink
content is exactly one compact, newline-terminated JSON object per record
(no enclosing array, no trailing separators: each line is one record's
serialization, opening with a brace), and splitting the content back into
lines and JSON-decoding each line yields the original records, in order,
field for field. -/
theorem c8_ndjson_roundtrip (records : List Json)
    (hobj : ∀ r ∈ records, ∃ fs, r = Json.obj fs) :
    (ndjsonContent records).data
      = (records.map (fun r => dumpChars r ++ ['\n'])).flatten
    ∧ (∀ r ∈ records, ∀ c ∈ dumpChars r, c ≠ '\n')
    ∧ (∀ r ∈ records, ∃ fs, dumpChars r = '{' :: (dumpFields fs ++ ['}']))
    ∧ (splitNl (ndjsonContent records).data).map
        (fun l => parseJson (String.mk l)) = records.map some := by
  refine ⟨ndjsonContent_data records, fun r _ => dumpChars_no_nl r, ?_, ?_⟩
  · intro r hr
    obtain ⟨fs, rfl⟩ := hobj r hr
    exact ⟨fs, rfl⟩
  · rw [ndjsonContent_data records]
    have hmap : records.map (fun r => dumpChars r ++ ['\n'])
        = (records.map dumpChars).map (fun m => m ++ ['\n']) :=
      (List.map_map (fun m => m ++ ['\n']) dumpChars records).symm
    rw [hmap, splitNl_ndjson (records.map dumpChars) (by
      intro m hm
      rw [List.mem_map] at hm
      obtain ⟨r, _, rfl⟩ := hm
      exact dumpChars_no_nl r)]
    rw [List.map_map]
    exact List.map_congr_left (fun r _ => parseJson_dump r)

/-- C8 witness: the round trip evaluated on one concrete object record. -/
theorem c8_witness :
    (∀ r ∈ [Json.obj [("a", Json.num 5)]], ∃ fs, r = Json.obj fs)
    ∧ ((ndjsonContent [Json.obj [("a", Json.num 5)]]).data
        = (([Json.obj [("a", Json.num 5)]]).map
            (fun r => dumpChars r ++ ['\n'])).flatten
      ∧ (∀ r ∈ [Json.obj [("a", Json.num 5)]], ∀ c ∈ dumpChars r, c ≠ '\n')
      ∧ (∀ r ∈ [Json.obj [("a", Json.num 5)]],
          ∃ fs, dumpChars r = '{' :: (dumpFields fs ++ ['}']))
      ∧ (splitNl (ndjsonContent [Json.obj [("a", Json.num 5)]]).data).map
          (fun l => parseJson (String.mk l))
        = ([Json.obj [("a", Json.num 5)]]).map some) :=
  have h : ∀ r ∈ [Json.obj [("a", Json.num 5)]], ∃ fs, r = Json.obj fs := by
    intro r hr
    rw [List.mem_singleton] at hr
    exact ⟨[("a", Json.num 5)], hr⟩
  ⟨h, c8_ndjson_roundtrip [Json.obj [("a", Json.num 5)]] h⟩

/-- A file system snapshot: an association of paths to file contents. -/
def FS := List (String × String)

/-- Content of the file at a path, none when absent. -/
def fsGet : List (String × String) → String → Option String
  | [], _ => none
  | (p, c) :: rest, q => if p = q then some c else fsGet rest q

/-- Create or overwrite the file at a path. -/
def fsSet : List (String × String) → String → String → List (String × String)
  | [], p, c => [(p, c)]
  | (q, d) :: rest, p, c =>
    if q = p then (q, c) :: rest else (q, d) :: fsSet rest p c

/-- Unlink the file at a path. -/
def fsRemove : List (String × String) → String → List (String × String)
  | [], _ => []
  | (q, d) :: rest, p =>
    if q = p then fsRemove rest p else (q, d) :: fsRemove rest p

/-- Path.replace: atomically rename src onto dst, overwriting dst; renaming
a path onto itself leaves the file in place. -/
def fsRename (fs : List (String × String)) (src dst : String) :
    List (String × String) :=
  match fsGet fs src with
  | none => fs
  | some c => if src = dst then fs else fsSet (fsRemove fs src) dst c

/-- pathlib with_suffix applied with the new suffix .tmp: the file name's
existing suffix (the part from the last dot, when that dot is neither the
leading character nor the trailing one) is replaced, otherwise .tmp is
appended. -/
def withSuffixTmp (name : List Char) : List Char :=
  let n := name.length
  let j := name.reverse.findIdx (fun c => c = '.')
  if 0 < j ∧ j < n - 1 then name.take (n - 1 - j) ++ ['.', 't', 'm', 'p']
  else name ++ ['.', 't', 'm', 'p']

/-- with_suffix .tmp on a path given as a string. -/
def withSuffixTmpS (s : String) : String := String.mk (withSuffixTmp s.data)

/-- Outcome oracle for one file write: the write either completes, fails
after some prefix of the content reached the disk, or fails before the
file was even created. -/
inductive WriteOutcome where
  | ok : WriteOutcome
  | failMid : String → WriteOutcome
  | failNone : WriteOutcome

/-- The shared body of save_json and save_ndjson: write the serialized
content to file_path.with_suffix .tmp, then atomically rename the
temporary file onto the final path; on a write failure, unlink the
temporary file if it exists and re-raise. -/
def atomicWrite (fs : List (String × String)) (name content : String)
    (w : WriteOutcome) : List (String × String) × Except Unit String :=
  let tempPath := withSuffixTmpS name
  match w with
  | WriteOutcome.ok =>
    let fs1 := fsSet fs tempPath content
    (fsRename fs1 tempPath name, Except.ok name)
  | WriteOutcome.failMid written =>
    let fs1 := fsSet fs tempPath written
    ((if (fsGet fs1 tempPath).isSome then fsRemove fs1 tempPath else fs1),
      Except.error ())
  | WriteOutcome.failNone =>
    ((if (fsGet fs tempPath).isSome then fsRemove fs tempPath else fs),
      Except.error ())

/-- Indentation padding. -/
def pad (n : Nat) : List Char := List.replicate n ' '

mutual
/-- Pretty serialization at a given indentation level, character for
character what json.dump(data, f, indent=2, ensure_ascii=False) writes:
two-space indentation, items separated by a bare comma and a newline,
a colon and a space after each key, empty containers on one line. -/
def pChars (ind : Nat) : Json → List Char
  | Json.null => ("null" : String).data
  | Json.bool true => ("true" : String).data
  | Json.bool false => ("false" : String).data
  | Json.num n => intChars n
  | Json.str s => '"' :: (escString s.data ++ ['"'])
  | Json.arr [] => ['[', ']']
  | Json.arr (x :: xs) =>
    '[' :: '\n' :: (pad (ind + 2) ++ pChars (ind + 2) x
      ++ pElemsRest (ind + 2) xs ++ '\n' :: (pad ind ++ [']']))
  | Json.obj [] => ['{', '}']
  | Json.obj (kv :: fs) =>
    '{' :: '\n' :: (pad (ind + 2) ++ pFieldChars (ind + 2) kv
      ++ pFieldsRest (ind + 2) fs ++ '\n' :: (pad ind ++ ['}']))

/-- Pretty serialization of array items after the first one. -/
def pElemsRest (ind : Nat) : List Json → List Char
  | [] => []
  | x :: xs => ',' :: '\n' :: (pad ind ++ pChars ind x ++ pElemsRest ind xs)

/-- Pretty serialization of object members after the first one. -/
def pFieldsRest (ind : Nat) : List (String × Json) → List Char
  | [] => []
  | kv :: fs =>
    ',' :: '\n' :: (pad ind ++ pFieldChars ind kv ++ pFieldsRest ind fs)

/-- Pretty serialization of one object member. -/
def pFieldChars (ind : Nat) (kv : String × Json) : List Char :=
  '"' :: (escString kv.1.data ++ '"' :: ':' :: ' ' :: pChars ind kv.2)
end

/-- save_json with pretty=True: atomically write the indent-2 rendering. -/
def save_json (fs : List (String × String)) (name : String) (j : Json)
    (w : WriteOutcome) : List (String × String) × Except Unit String :=
  atomicWrite fs name (String.mk (pChars 0 j)) w

/-- save_ndjson: atomically write one compact JSON line per record. -/
def save_ndjson (fs : List (String × String)) (name : String)
    (records : List Json) (w : WriteOutcome) :
    List (String × String) × Except Unit String :=
  atomicWrite fs name (ndjsonContent records) w

theorem fsGet_fsSet_self (fs : List (String × String)) (p c : String) :
    fsGet (fsSet fs p c) p = some c := by
  induction fs with
  | nil => simp [fsSet, fsGet]
  | cons hd rest ih =>
    obtain ⟨q, d⟩ := hd
    by_cases hqp : q = p
    · simp [fsSet, hqp, fsGet]
    · simp [fsSet, hqp, fsGet, ih]

theorem fsGet_fsSet_ne (fs : List (String × String)) (p c q : String)
    (h : q ≠ p) : fsGet (fsSet fs p c) q = fsGet fs q := by
  induction fs with
  | nil =>
    show (if p = q then some c else none) = none
    rw [if_neg (Ne.symm h)]
  | cons hd rest ih =>
    obtain ⟨x, d⟩ := hd
    by_cases hxp : x = p
    · subst hxp
      simp only [fsSet, if_pos rfl]
      show (if x = q then some c else fsGet rest q)
        = (if x = q then some d else fsGet rest q)
      rw [if_neg (fun he => h (he.symm.trans rfl)), if_neg (fun he => h he.symm)]
    · simp only [fsSet, if_neg hxp]
      show (if x = q then some d else fsGet (fsSet rest p c) q)
        = (if x = q then some d else fsGet rest q)
      by_cases hxq : x = q
      · rw [if_pos hxq, if_pos hxq]
      · rw [if_neg hxq, if_neg hxq]
        exact ih

theorem fsGet_fsRemove_self (fs : List (String × String)) (p : String) :
    fsGet (fsRemove fs p) p = none := by
  induction fs with
  | nil => rfl
  | cons hd rest ih =>
    obtain ⟨q, d⟩ := hd
    by_cases hqp : q = p
    · simp only [fsRemove, if_pos hqp]
      exact ih
    · simp only [fsRemove, if_neg hqp]
      show (if q = p then some d else fsGet (fsRemove rest p) p) = none
      rw [if_neg hqp]
      exact ih

theorem fsGet_fsRemove_ne (fs : List (String × String)) (p q : String)
    (h : q ≠ p) : fsGet (fsRemove fs p) q = fsGet fs q := by
  induction fs with
  | nil => rfl
  | cons hd rest ih =>
    obtain ⟨x, d⟩ := hd
    by_cases hxp : x = p
    · subst hxp
      simp only [fsRemove, if_pos rfl]
      show fsGet (fsRemove rest x) q = (if x = q then some d else fsGet rest q)
      rw [if_neg (fun he => h he.symm)]
      exact ih
    · simp only [fsRemove, if_neg hxp]
      show (if x = q then some d else fsGet (fsRemove rest p) q)
        = (if x = q then some d else fsGet rest q)
      by_cases hxq : x = q
      · rw [if_pos hxq, if_pos hxq]
      · rw [if_neg hxq, if_neg hxq]
        exact ih

theorem fsRename_of_some (fs : List (String × String)) (src dst c : String)
    (hget : fsGet fs src = some c) (hne : src ≠ dst) :
    fsRename fs src dst = fsSet (fsRemove fs src) dst c := by
  unfold fsRename
  rw [hget]
  show (if src = dst then fs else fsSet (fsRemove fs src) dst c)
    = fsSet (fsRemove fs src) dst c
  rw [if_neg hne]

/-- What the specification promises of one atomic sink write: success
leaves the content at the final path and no temporary file, with every
other path untouched; failure leaves no temporary file and every path
other than the temporary one untouched - in particular a pre-existing
final file keeps its old content. -/
def AtomicSinkSpec (fs : List (String × String)) (name content : String)
    (res : List (String × String) × Except Unit String)
    (w : WriteOutcome) : Prop :=
  (w = WriteOutcome.ok →
      res.2 = Except.ok name
    ∧ fsGet res.1 name = some content
    ∧ fsGet res.1 (withSuffixTmpS name) = none
    ∧ ∀ p, p ≠ name → p ≠ withSuffixTmpS name → fsGet res.1 p = fsGet fs p)
  ∧ (∀ t, w = WriteOutcome.failMid t →
      res.2 = Except.error ()
    ∧ fsGet res.1 (withSuffixTmpS name) = none
    ∧ ∀ p, p ≠ withSuffixTmpS name → fsGet res.1 p = fsGet fs p)
  ∧ (w = WriteOutcome.failNone →
      res.2 = Except.error ()
    ∧ fsGet res.1 (withSuffixTmpS name) = none
    ∧ ∀ p, p ≠ withSuffixTmpS name → fsGet res.1 p = fsGet fs p)

theorem atomicWrite_spec (fs : List (String × String))
    (name content : String) (w : WriteOutcome)
    (h : withSuffixTmpS name ≠ name) :
    AtomicSinkSpec fs name content (atomicWrite fs name content w) w := by
  refine ⟨?_, ?_, ?_⟩
  · intro hw
    subst hw
    have hget := fsGet_fsSet_self fs (withSuffixTmpS name) content
    have hren := fsRename_of_some (fsSet fs (withSuffixTmpS name) content)
      (withSuffixTmpS name) name content hget h
    refine ⟨rfl, ?_, ?_, ?_⟩
    · show fsGet (fsRename (fsSet fs (withSuffixTmpS name) content)
        (withSuffixTmpS name) name) name = some content
      rw [hren]
      exact fsGet_fsSet_self _ name content
    · show fsGet (fsRename (fsSet fs (withSuffixTmpS name) content)
        (withSuffixTmpS name) name) (withSuffixTmpS name) = none
      rw [hren]
      rw [fsGet_fsSet_ne _ name content (withSuffixTmpS name) h]
      exact fsGet_fsRemove_self _ _
    · intro p hpn hpt
      show fsGet (fsRename (fsSet fs (withSuffixTmpS name) content)
        (withSuffixTmpS name) name) p = fsGet fs p
      rw [hren]
      rw [fsGet_fsSet_ne _ name content p hpn]
      rw [fsGet_fsRemove_ne _ (withSuffixTmpS name) p hpt]
      exact fsGet_fsSet_ne fs (withSuffixTmpS name) content p hpt
  · intro t hw
    subst hw
    have hget := fsGet_fsSet_self fs (withSuffixTmpS name) t
    refine ⟨rfl, ?_, ?_⟩
    · show fsGet (if (fsGet (fsSet fs (withSuffixTmpS name) t)
          (withSuffixTmpS name)).isSome then
          fsRemove (fsSet fs (withSuffixTmpS name) t) (withSuffixTmpS name)
        else fsSet fs (withSuffixTmpS name) t) (withSuffixTmpS name) = none
      rw [hget]
      exact fsGet_fsRemove_self _ _
    · intro p hpt
      show fsGet (if (fsGet (fsSet fs (withSuffixTmpS name) t)
          (withSuffixTmpS name)).isSome then
          fsRemove (fsSet fs (withSuffixTmpS name) t) (withSuffixTmpS name)
        else fsSet fs (withSuffixTmpS name) t) p = fsGet fs p
      rw [hget]
      have h1 : fsGet (fsRemove (fsSet fs (withSuffixTmpS name) t)
          (withSuffixTmpS name)) p = fsGet fs p := by
        rw [fsGet_fsRemove_ne _ (withSuffixTmpS name) p hpt]
        exact fsGet_fsSet_ne fs (withSuffixTmpS name) t p hpt
      exact h1
  · intro hw
    subst hw
    refine ⟨rfl, ?_, ?_⟩
    · show fsGet (if (fsGet fs (withSuffixTmpS name)).isSome then
          fsRemove fs (withSuffixTmpS name) else fs) (withSuffixTmpS name) = none
      cases hc : fsGet fs (withSuffixTmpS name) with
      | none => exact hc
      | some c => exact fsGet_fsRemove_self _ _
    · intro p hpt
      show fsGet (if (fsGet fs (withSuffixTmpS name)).isSome then
          fsRemove fs (withSuffixTmpS name) else fs) p = fsGet fs p
      cases hc : fsGet fs (withSuffixTmpS name) with
      | none => rfl
      | some c => exact fsGet_fsRemove_ne _ (withSuffixTmpS name) p hpt

/-- C9 counterexample: saving under the file name data.tmp makes the
temporary path with_suffix .tmp coincide with the final path, so a failed
write deletes the pre-existing final file instead of leaving it
unchanged. -/
theorem c9_counterexample :
    withSuffixTmpS "data.tmp" = "data.tmp"
    ∧ (save_ndjson [("data.tmp", "old")] "data.tmp" []
        (WriteOutcome.failMid "")).2 = Except.error ()
    ∧ fsGet (save_ndjson [("data.tmp", "old")] "data.tmp" []
        (WriteOutcome.failMid "")).1 "data.tmp" = none
    ∧ fsGet [("data.tmp", "old")] "data.tmp" = some "old" := by
  refine ⟨by decide, rfl, by decide, by decide⟩

/-- C9: for both sink modes, provided the file name's with_suffix .tmp
temporary path differs from the final path: a successful write leaves the
serialized content at the final path, no temporary file, and every other
path untouched; a failed write (whether or not a partial temporary file
was created) removes the temporary file before the error propagates and
leaves every other path, in particular a pre-existing final file,
unchanged. -/
theorem c9_atomic_sink (fs : List (String × String)) (name : String)
    (j : Json) (records : List Json) (w : WriteOutcome)
    (h : withSuffixTmpS name ≠ name) :
    AtomicSinkSpec fs name (String.mk (pChars 0 j)) (save_json fs name j w) w
    ∧ AtomicSinkSpec fs name (ndjsonContent records)
        (save_ndjson fs name records w) w :=
  ⟨atomicWrite_spec fs name (String.mk (pChars 0 j)) w h,
   atomicWrite_spec fs name (ndjsonContent records) w h⟩

/-- C9 witness: the atomic-sink contract evaluated at a concrete file
system, file name and record list. -/
theorem c9_witness :
    withSuffixTmpS "data.json" ≠ "data.json"
    ∧ (AtomicSinkSpec [("data.json", "old")] "data.json"
        (String.mk (pChars 0 Json.null))
        (save_json [("data.json", "old")] "data.json" Json.null
          WriteOutcome.ok) WriteOutcome.ok
      ∧ AtomicSinkSpec [("data.json", "old")] "data.json"
          (ndjsonContent [Json.null])
          (save_ndjson [("data.json", "old")] "data.json" [Json.null]
            WriteOutcome.ok) WriteOutcome.ok) :=
  ⟨by decide,
   c9_atomic_sink [("data.json", "old")] "data.json" Json.null [Json.null]
     WriteOutcome.ok (by decide)⟩

/-- Fuel-driven helper splitting a character stream at commas, keeping
empty fields, as Python str.split does. -/
def splitCommaGo : Nat → List Char → List (List Char)
  | 0, _ => []
  | fuel + 1, cs =>
    let f := cs.takeWhile (fun c => c ≠ ',')
    match cs.dropWhile (fun c => c ≠ ',') with
    | [] => [f]
    | _ :: rest => f :: splitCommaGo fuel rest

/-- Python str.split on a comma. -/
def splitComma (cs : List Char) : List (List Char) :=
  splitCommaGo (cs.length + 1) cs

/-- Python str.strip: drop leading and trailing whitespace. -/
def pyStrip (cs : List Char) : List Char :=
  ((cs.dropWhile Char.isWhitespace).reverse.dropWhile Char.isWhitespace).reverse

/-- The 20 built-in default cryptocurrencies: symbol, name, category. -/
def DEFAULT_CRYPTO_SYMBOLS : List (String × String × String) :=
  [("BTC", "Bitcoin", "Layer 1"),
   ("ETH", "Ethereum", "Layer 1"),
   ("BNB", "BNB", "Exchange"),
   ("SOL", "Solana", "Layer 1"),
   ("XRP", "Ripple", "Payment"),
   ("ADA", "Cardano", "Layer 1"),
   ("AVAX", "Avalanche", "Layer 1"),
   ("DOGE", "Dogecoin", "Meme"),
   ("DOT", "Polkadot", "Layer 0"),
   ("MATIC", "Polygon", "Layer 2"),
   ("LINK", "Chainlink", "Oracle"),
   ("UNI", "Uniswap", "DeFi"),
   ("ATOM", "Cosmos", "Layer 0"),
   ("LTC", "Litecoin", "Payment"),
   ("ETC", "Ethereum Classic", "Layer 1"),
   ("XLM", "Stellar", "Payment"),
   ("ALGO", "Algorand", "Layer 1"),
   ("VET", "VeChain", "Supply Chain"),
   ("FIL", "Filecoin", "Storage"),
   ("HBAR", "Hedera", "Enterprise")]

/-- get_crypto_symbols: a truthy CRYPTO_SYMBOLS environment value is split
on commas, each part stripped, and the defaults are filtered to those
whose symbol occurs among the parsed names; an empty value keeps the
defaults. -/
def get_crypto_symbols (env : String) : List (String × String × String) :=
  if env ≠ "" then
    DEFAULT_CRYPTO_SYMBOLS.filter (fun t =>
      decide (t.1 ∈ (splitComma env.data).map (fun cs => String.mk (pyStrip cs))))
  else DEFAULT_CRYPTO_SYMBOLS

/-- get_fiat_currencies: a truthy FIAT_CURRENCIES environment value is
split on commas and stripped; an empty value keeps the default BRL. -/
def get_fiat_currencies (env : String) : List String :=
  if env ≠ "" then (splitComma env.data).map (fun cs => String.mk (pyStrip cs))
  else ["BRL"]

/-- CryptoConfig.validate: raises on a missing API key, then on an empty
configured symbol list, then on an empty fiat currency list; otherwise
returns True. -/
def validateConfig (apiKey cryptoEnv fiatEnv : String) : Except String Bool :=
  if apiKey = "" then
    Except.error
      "COINMARKETCAP_API_KEY environment variable is required. Get your free API key from https://coinmarketcap.com/api/"
  else if (get_crypto_symbols cryptoEnv).isEmpty then
    Except.error "No cryptocurrencies configured for monitoring"
  else if (get_fiat_currencies fiatEnv).isEmpty then
    Except.error "No fiat currencies configured"
  else Except.ok true

/-- C10: for every value of the CRYPTO_SYMBOLS override the configured
symbol list is a sublist of the 20 built-in defaults, in default order;
and a non-empty override in which no listed name matches any default
symbol yields the empty symbol list, which validation rejects with the
no-cryptocurrencies-configured error (given a configured API key). -/
theorem c10_symbol_override :
    DEFAULT_CRYPTO_SYMBOLS.length = 20
    ∧ (∀ env : String,
        List.Sublist (get_crypto_symbols env) DEFAULT_CRYPTO_SYMBOLS)
    ∧ (∀ env apiKey fiatEnv : String, env ≠ "" → apiKey ≠ "" →
        (∀ nm ∈ (splitComma env.data).map (fun cs => String.mk (pyStrip cs)),
          ∀ t ∈ DEFAULT_CRYPTO_SYMBOLS, t.1 ≠ nm) →
        get_crypto_symbols env = []
        ∧ validateConfig apiKey env fiatEnv
          = Except.error "No cryptocurrencies configured for monitoring") := by
  refine ⟨rfl, ?_, ?_⟩
  · intro env
    by_cases he : env = ""
    · subst he
      simp only [get_crypto_symbols]
      rw [if_neg (fun hne => hne rfl)]
    · simp only [get_crypto_symbols]
      rw [if_pos he]
      exact List.filter_sublist _
  · intro env apiKey fiatEnv henv hkey hnm
    have h1 : get_crypto_symbols env = [] := by
      simp only [get_crypto_symbols]
      rw [if_pos henv]
      rw [List.filter_eq_nil_iff]
      intro t ht hmem
      rw [decide_eq_true_eq] at hmem
      exact hnm t.1 hmem t ht rfl
    refine ⟨h1, ?_⟩
    simp only [validateConfig]
    rw [if_neg hkey, h1]
    rfl

/-- C10 witness: an override naming only unknown symbols, evaluated. -/
theorem c10_witness :
    ("FOO,BAR" : String) ≠ ""
    ∧ ("k" : String) ≠ ""
    ∧ (∀ nm ∈ (splitComma ("FOO,BAR" : String).data).map
          (fun cs => String.mk (pyStrip cs)),
        ∀ t ∈ DEFAULT_CRYPTO_SYMBOLS, t.1 ≠ nm)
    ∧ (get_crypto_symbols "FOO,BAR" = []
      ∧ validateConfig "k" "FOO,BAR" ""
        = Except.error "No cryptocurrencies configured for monitoring") :=
  ⟨by decide, by decide, by decide,
   c10_symbol_override.2.2 "FOO,BAR" "k" "" (by decide) (by decide) (by decide)⟩

end Crypto
